import Mathlib

/-!
# Verification of the LZA codec core of the `minify` repository

This file gives a shallow embedding, in Lean 4, of the codec core of the
`minify` repository (files `bit_emit.c`, `bit_stream.c`, `arith_encode.c`,
`arith_decode.c`, `lza_compress.c`, `lza_decompress.c`, `find_repeats.c`,
`lza_defines.h`) and proves or refutes the specification claims about it.

Machine integers are modelled as `Nat` with explicit `% 2^w` reductions at
the points where the C code can wrap; byte buffers are `List Nat`
(each element a byte value); memory is `Nat → Nat` (byte addressable,
addresses relative to the destination pointer).  C loops are translated to
structural recursion, with an explicit fuel argument where the C loop bound
is data dependent; in each such case the fuel chosen is an upper bound on
the number of iterations the C loop can perform.
-/

set_option maxRecDepth 10000

namespace Minify

/-- Bits of `value`, most-significant first, `width` bits long.  This is the
sequence of bits produced by the C pattern
`do { bit = (value >> --bits) & 1; ... } while (bits);`
used by `emit_bits` in `lza_compress.c` and `bit_emit.c`. -/
def bitsMSB : Nat → Nat → List Nat
  | 0, _ => []
  | w + 1, value => ((value >>> w) % 2) :: bitsMSB w value

/-- Assemble a bit list into a value, MSB first: the C pattern
`value = (value << 1) | bit` used by `get_bits` in `bit_stream.c`. -/
def ofBitsMSB (l : List Nat) : Nat :=
  l.foldl (fun a b => 2 * a + b) 0

/-- Read `n` bits from the front of a bit list, returning the assembled
value and the remaining bits.  This abstracts the transport performed by
`get_bits` (bit_stream.c): `get_bits(s, n)` returns the `n`-bit MSB-first
integer made of the next `n` bits of the stream. -/
def takeBits (n : Nat) (l : List Nat) : Nat × List Nat :=
  (ofBitsMSB (l.take n), l.drop n)

@[simp] theorem bitsMSB_length (w v : Nat) : (bitsMSB w v).length = w := by
  induction w generalizing v with
  | zero => rfl
  | succ k ih => simp [bitsMSB, ih]

theorem ofBitsMSB_append (a b : List Nat) :
    ofBitsMSB (a ++ b) = b.foldl (fun x y => 2 * x + y) (ofBitsMSB a) := by
  simp [ofBitsMSB, List.foldl_append]

theorem foldl_bits_init (l : List Nat) : ∀ a : Nat,
    l.foldl (fun x y => 2 * x + y) a = a * 2 ^ l.length + ofBitsMSB l := by
  induction l with
  | nil => intro a; simp [ofBitsMSB]
  | cons c t ih =>
    intro a
    simp only [List.foldl_cons, List.length_cons, ofBitsMSB]
    rw [ih (2 * a + c), ih (2 * 0 + c)]
    ring

theorem ofBitsMSB_cons (c : Nat) (l : List Nat) :
    ofBitsMSB (c :: l) = c * 2 ^ l.length + ofBitsMSB l := by
  show l.foldl (fun x y => 2 * x + y) (2 * 0 + c) = _
  rw [foldl_bits_init]; ring_nf

/-- Assembling the emitted bits recovers the value modulo `2^w`. -/
theorem ofBitsMSB_bitsMSB (w v : Nat) : ofBitsMSB (bitsMSB w v) = v % 2 ^ w := by
  induction w generalizing v with
  | zero => simp [bitsMSB, ofBitsMSB, Nat.mod_one]
  | succ k ih =>
    rw [bitsMSB, ofBitsMSB_cons, ih, bitsMSB_length]
    rw [Nat.shiftRight_eq_div_pow]
    rw [pow_succ, Nat.mod_mul]
    ring

theorem bitsMSB_split (a b v : Nat) :
    bitsMSB (a + b) v = bitsMSB a (v >>> b) ++ bitsMSB b v := by
  induction a with
  | zero => simp [bitsMSB]
  | succ k ih =>
    rw [show k + 1 + b = (k + b) + 1 by omega, bitsMSB, ih, bitsMSB, List.cons_append]
    have : v >>> b >>> k = v >>> (k + b) := by
      rw [Nat.add_comm, ← Nat.shiftRight_add]
    rw [this]

theorem takeBits_exact (n : Nat) (v : Nat) (r : List Nat) :
    takeBits n (bitsMSB n v ++ r) = (v % 2 ^ n, r) := by
  unfold takeBits
  rw [List.take_left' (bitsMSB_length n v), List.drop_left' (bitsMSB_length n v),
    ofBitsMSB_bitsMSB]

theorem takeBits_all (n : Nat) (v : Nat) :
    takeBits n (bitsMSB n v) = (v % 2 ^ n, []) := by
  rw [← List.append_nil (bitsMSB n v), takeBits_exact]

/-- Bitwise helper: `or`-ing a value below `2^k` with a multiple of `2^k`
is addition. -/
theorem lor_low_add (a m k : Nat) (ha : a < 2 ^ k) :
    a ||| m * 2 ^ k = a + m * 2 ^ k := by
  have hm : m * 2 ^ k = m <<< k := (Nat.shiftLeft_eq m k).symm
  apply Nat.eq_of_testBit_eq
  intro i
  rw [Nat.testBit_lor, hm, Nat.testBit_shiftLeft]
  rcases Nat.lt_or_ge i k with hik | hik
  · have h1 : (decide (k ≤ i) && m.testBit (i - k)) = false := by
      simp [Nat.not_le.mpr hik]
    rw [h1, Bool.or_false]
    have : (a + m <<< k).testBit i = ((a + m <<< k) % 2 ^ k).testBit i := by
      rw [Nat.testBit_mod_two_pow]
      simp [hik]
    rw [this]
    have hmod : (a + m <<< k) % 2 ^ k = a := by
      rw [← hm, Nat.add_mul_mod_self_right, Nat.mod_eq_of_lt ha]
    rw [hmod]
  · have h0 : a.testBit i = false :=
      Nat.testBit_lt_two_pow (Nat.lt_of_lt_of_le ha (Nat.pow_le_pow_right (by omega) hik))
    rw [h0, Bool.false_or]
    have hdiv : (a + m <<< k) / 2 ^ k = m := by
      rw [← hm, Nat.add_mul_div_right _ _ (Nat.pos_pow_of_pos k (by omega)),
        Nat.div_eq_of_lt ha, Nat.zero_add]
    have : (a + m <<< k).testBit i = ((a + m <<< k) >>> k).testBit (i - k) := by
      rw [Nat.testBit_shiftRight, Nat.add_sub_cancel' hik]
    rw [this, Nat.shiftRight_eq_div_pow, hdiv]
    simp [hik]

/-- Bitwise helper: clearing the top set bit with `x &= ~(1 << k)`
(modelled as a mask at 64 bits) subtracts `2^k` when `2^k ≤ x < 2^(k+1)`. -/
theorem land_clear_top (x k : Nat) (hk : k < 64) (hlo : 2 ^ k ≤ x)
    (hhi : x < 2 ^ (k + 1)) :
    x &&& ((2 ^ 64 - 1) ^^^ 2 ^ k) = x - 2 ^ k := by
  have hsub : x - 2 ^ k = x % 2 ^ k := by
    have h2 : x % 2 ^ k = (x - 2 ^ k) % 2 ^ k := Nat.mod_eq_sub_mod hlo
    have h3 : x - 2 ^ k < 2 ^ k := by
      have := pow_succ 2 k
      omega
    rw [h2, Nat.mod_eq_of_lt h3]
  rw [hsub]
  apply Nat.eq_of_testBit_eq
  intro i
  rw [Nat.testBit_land, Nat.testBit_xor, Nat.testBit_mod_two_pow,
    Nat.testBit_two_pow_sub_one]
  rcases Nat.lt_trichotomy i k with hik | hik | hik
  · have h1 : (2 ^ k).testBit i = false := Nat.testBit_two_pow_of_ne (by omega)
    have h64 : i < 64 := by omega
    simp [h1, hik, h64]
  · subst hik
    have h1 : (2 ^ i).testBit i = true := Nat.testBit_two_pow_self
    simp [h1, hk]
  · have h1 : (2 ^ k).testBit i = false := Nat.testBit_two_pow_of_ne (by omega)
    have h2 : x.testBit i = false :=
      Nat.testBit_lt_two_pow (Nat.lt_of_lt_of_le hhi (Nat.pow_le_pow_right (by omega) hik))
    simp [h1, h2, Nat.lt_asymm hik]

/-- Fuel-based bit width of a natural number (number of binary digits);
structurally recursive so that the kernel can evaluate it.  `bitWidth f n`
is the bit width of `n` whenever `n < 2^f`. -/
def bitWidth : Nat → Nat → Nat
  | 0, _ => 0
  | f + 1, n => if n = 0 then 0 else bitWidth f (n / 2) + 1

theorem bitWidth_zero_eval (f : Nat) : bitWidth f 0 = 0 := by
  cases f <;> simp [bitWidth]

theorem bitWidth_spec (k : Nat) : ∀ f n, 2 ^ k ≤ n → n < 2 ^ (k + 1) → k < f →
    bitWidth f n = k + 1 := by
  induction k with
  | zero =>
    intro f n h1 h2 hf
    cases f with
    | zero => omega
    | succ f =>
      have hn : n = 1 := by
        have e1 : (2:Nat) ^ 0 = 1 := by norm_num
        have e2 : (2:Nat) ^ (0 + 1) = 2 := by norm_num
        omega
      subst hn
      rw [bitWidth, if_neg (by omega)]
      norm_num [bitWidth_zero_eval]
  | succ j ih =>
    intro f n h1 h2 hf
    cases f with
    | zero => omega
    | succ f =>
      have hn0 : n ≠ 0 := by
        have : 0 < 2 ^ (j + 1) := Nat.pos_pow_of_pos _ (by omega)
        omega
      have hd1 : 2 ^ j ≤ n / 2 := by
        rw [Nat.le_div_iff_mul_le (by omega : 0 < 2)]
        have : 2 ^ j * 2 = 2 ^ (j + 1) := by ring
        omega
      have hd2 : n / 2 < 2 ^ (j + 1) := by
        rw [Nat.div_lt_iff_lt_mul (by omega : 0 < 2)]
        have : 2 ^ (j + 1) * 2 = 2 ^ (j + 1 + 1) := by ring
        omega
      rw [bitWidth, if_neg hn0, ih f (n / 2) hd1 hd2 (by omega)]

/-! ## Packet field encodings (`lza_compress.c` / `lza_decompress.c`)

The length and distance fields are modelled at the level of the bit
sequences exchanged between the emitter (`emit_bits`, which emits the low
`bits` bits of `value` most-significant first) and the reader
(`get_bits`, which assembles bits most-significant first).  `takeBits`
plays the role of `get_bits` on that bit sequence. -/

namespace LzaCompress

/-- Constant `LZA_LENGTH_TAIL_BITS` from `lza_defines.h`. -/
def LZA_LENGTH_TAIL_BITS : Nat := 11

/-- Constant `MAX_LZA_SIZE = 17 + (1 << LZA_LENGTH_TAIL_BITS)` from
`lza_defines.h`; the cap used by `compare` in `find_repeats.c`. -/
def MAX_LZA_SIZE : Nat := 17 + 2 ^ LZA_LENGTH_TAIL_BITS

/-- Bit sequence produced by `emit_size` in `lza_compress.c`:
`0` + 3 bits for 2..9, `10` + 3 bits for 10..17, `11` + 8 bits for
18..273 (the tail width is the literal constant 8 in the source). -/
def emit_size_bits (size : Nat) : List Nat :=
  if size ≤ 9 then bitsMSB 1 0 ++ bitsMSB 3 (size - 2)
  else if size ≤ 17 then bitsMSB 2 2 ++ bitsMSB 3 (size - 10)
  else bitsMSB 2 3 ++ bitsMSB 8 (size - 18)

/-- Models `count_trailing_bits` in `lza_compress.c`, which is
`__builtin_clz` (leading-zero count of a nonzero 32-bit value), via the
fuel-based bit width. -/
def count_trailing_bits (value : Nat) : Nat := 32 - bitWidth 32 value

/-- Bit sequence produced by `emit_offset` in `lza_compress.c`.
`size_t` arithmetic is modelled modulo `2^64` (`--offset` wraps on 0);
the cast `(unsigned int)offset` is `% 2^32`; `~((size_t)1 << bits_m1)` is
the 64-bit mask `(2^64-1) ^^^ (1 <<< bits_m1)`; the `uint32_t` shift
`bits_m1 << bits_m1` wraps modulo `2^32`. -/
def emit_offset_bits (offset : Nat) : List Nat :=
  let offset := (offset + (2 ^ 64 - 1)) % 2 ^ 64
  if offset < 2 then bitsMSB 6 offset
  else
    let bits_m1 := 31 - count_trailing_bits (offset % 2 ^ 32)
    let offset := offset &&& ((2 ^ 64 - 1) ^^^ (1 <<< bits_m1))
    let offset := offset ||| ((bits_m1 <<< bits_m1) % 2 ^ 32)
    bitsMSB (bits_m1 + 5) offset

end LzaCompress

namespace LzaDecompress

/-- `decode_length` from `lza_decompress.c` on the bit sequence of the
SIZE stream: base value 2, `+8` after a first 1 bit, `+8` more and an
8-bit tail (literal constant 8 in the source) after a second 1 bit. -/
def decode_length (l : List Nat) : Nat × List Nat :=
  let d1 := takeBits 1 l
  if d1.1 ≠ 0 then
    let d2 := takeBits 1 d1.2
    if d2.1 ≠ 0 then
      let t := takeBits 8 d2.2
      (2 + 8 + 8 + t.1, t.2)
    else
      let t := takeBits 3 d2.2
      (2 + 8 + t.1, t.2)
  else
    let t := takeBits 3 d1.2
    (2 + t.1, t.2)

/-- `decode_distance` from `lza_decompress.c` on the bit sequence of the
OFFSET stream. -/
def decode_distance (l : List Nat) : Nat × List Nat :=
  let p := takeBits 6 l
  if p.1 < 2 then (p.1 + 1, p.2)
  else
    let bits := (p.1 >>> 1) - 1
    let q := takeBits bits p.2
    ((((p.1 &&& 1) + 2) <<< bits) + q.1 + 1, q.2)

end LzaDecompress

/-- C4: the length field claims tail size `T = LZA_LENGTH_TAIL_BITS = 11`
(encodable lengths up to `17 + 2^11 = 2065`) with encoder and decoder
agreeing on `T`.  The constant in `lza_defines.h` is indeed 11 and the
match finder caps match lengths at `MAX_LZA_SIZE = 2065`, but `emit_size`
and `decode_length` both hardcode an 8-bit tail: the length 300, which the
finder may produce (it is `≤ MAX_LZA_SIZE`), is emitted as the 8 low bits
of `300 - 18` and decodes to 44, not 300.  This refutes the claim as a
code bug (the code contradicts its own `assert(size <= 273)` against the
`MAX_LZA_SIZE` cap in `find_repeats.c`). -/
theorem c4_length_codec_tail_bits_mismatch :
    LzaCompress.LZA_LENGTH_TAIL_BITS = 11 ∧
    LzaCompress.MAX_LZA_SIZE = 2065 ∧
    (300 : Nat) ≤ LzaCompress.MAX_LZA_SIZE ∧
    LzaDecompress.decode_length (LzaCompress.emit_size_bits 300) = (44, []) ∧
    (44 : Nat) ≠ 300 := by
  refine ⟨rfl, rfl, by decide, by decide, by decide⟩

/-- C7 counterexample: for distance `D = 2^28 + 1`, `emit_offset` computes
`k = 28` and the `uint32_t` expression `k << k` wraps modulo `2^32`
(`28 << 28 = 0xC0000000`), so the emitted field decodes to 4097, not `D`.
The claim "for every distance D ≥ 1" is therefore false as stated. -/
theorem c7_distance_codec_counterexample :
    (LzaDecompress.decode_distance
      (LzaCompress.emit_offset_bits (2 ^ 28 + 1))).1 = 4097 ∧
    (4097 : Nat) ≠ 2 ^ 28 + 1 := by
  refine ⟨by decide, by decide⟩

/-- Innermost core of the C7 round-trip, stated over the binary
decomposition `D - 1 = 2^k + b * 2^(k-1) + m` of the distance
(`b` the bit below the top bit, `m` the remaining low bits). -/
theorem decode_distance_core2 (k b m : Nat) (hk1 : 1 ≤ k) (hk27 : k ≤ 27)
    (hb : b ≤ 1) (hm : m < 2 ^ (k - 1)) :
    LzaDecompress.decode_distance
        (bitsMSB (k + 5) ((b * 2 ^ (k - 1) + m) + k * 2 ^ k)) =
      (2 ^ k + (b * 2 ^ (k - 1) + m) + 1, []) := by
  have hp : 2 ^ k = 2 ^ (k - 1) * 2 := by
    rw [← pow_succ]
    congr 1
    omega
  have hpos : 0 < 2 ^ (k - 1) := Nat.pos_pow_of_pos _ (by omega)
  have hXe : (b * 2 ^ (k - 1) + m) + k * 2 ^ k = m + (b + 2 * k) * 2 ^ (k - 1) := by
    rw [hp]; ring
  have hXdiv : ((b * 2 ^ (k - 1) + m) + k * 2 ^ k) >>> (k - 1) = b + 2 * k := by
    rw [Nat.shiftRight_eq_div_pow, hXe, Nat.add_mul_div_right _ _ hpos,
      Nat.div_eq_of_lt hm, Nat.zero_add]
  have hXmod : ((b * 2 ^ (k - 1) + m) + k * 2 ^ k) % 2 ^ (k - 1) = m := by
    rw [hXe, Nat.add_mul_mod_self_right, Nat.mod_eq_of_lt hm]
  have hsplit : bitsMSB (k + 5) ((b * 2 ^ (k - 1) + m) + k * 2 ^ k)
      = bitsMSB 6 (((b * 2 ^ (k - 1) + m) + k * 2 ^ k) >>> (k - 1))
        ++ bitsMSB (k - 1) ((b * 2 ^ (k - 1) + m) + k * 2 ^ k) := by
    rw [show k + 5 = 6 + (k - 1) by omega]
    exact bitsMSB_split _ _ _
  have hdata6 : (b + 2 * k) % 2 ^ 6 = b + 2 * k := by
    apply Nat.mod_eq_of_lt
    have h64 : (2:Nat) ^ 6 = 64 := by norm_num
    omega
  have hbits : (b + 2 * k) >>> 1 - 1 = k - 1 := by
    rw [Nat.shiftRight_eq_div_pow, pow_one]
    omega
  have hand1 : (b + 2 * k) &&& 1 = b := by
    rw [Nat.and_one_is_mod]
    omega
  unfold LzaDecompress.decode_distance
  rw [hsplit]
  simp only [takeBits_exact, takeBits_all, hXdiv, hdata6]
  rw [if_neg (by omega : ¬ (b + 2 * k < 2))]
  simp only [hbits, takeBits_all, hXmod, hand1, Nat.shiftLeft_eq]
  have hfin : (b + 2) * 2 ^ (k - 1) + m + 1
      = 2 ^ k + (b * 2 ^ (k - 1) + m) + 1 := by
    rw [hp]; ring
  rw [hfin]

/-- Core of the C7 round-trip: decoding the `k+5`-bit field
`r + k * 2^k` (the body of `emit_offset` when `D - 1 = 2^k + r`,
`r < 2^k`, no overflow) recovers `2^k + r + 1`. -/
theorem decode_distance_core (k r : Nat) (hk1 : 1 ≤ k) (hk27 : k ≤ 27)
    (hr : r < 2 ^ k) :
    LzaDecompress.decode_distance (bitsMSB (k + 5) (r + k * 2 ^ k)) =
      (2 ^ k + r + 1, []) := by
  have hp : 2 ^ k = 2 ^ (k - 1) * 2 := by
    rw [← pow_succ]
    congr 1
    omega
  have hpos : 0 < 2 ^ (k - 1) := Nat.pos_pow_of_pos _ (by omega)
  have hdm : 2 ^ (k - 1) * (r / 2 ^ (k - 1)) + r % 2 ^ (k - 1) = r :=
    Nat.div_add_mod r (2 ^ (k - 1))
  have hmlt : r % 2 ^ (k - 1) < 2 ^ (k - 1) := Nat.mod_lt r hpos
  have hble : r / 2 ^ (k - 1) ≤ 1 := by
    have h2 : r / 2 ^ (k - 1) < 2 := Nat.div_lt_of_lt_mul (by omega)
    omega
  have hr' : r = (r / 2 ^ (k - 1)) * 2 ^ (k - 1) + r % 2 ^ (k - 1) := by
    rw [Nat.mul_comm]
    omega
  have h := decode_distance_core2 k (r / 2 ^ (k - 1)) (r % 2 ^ (k - 1))
    hk1 hk27 hble hmlt
  rw [← hr'] at h
  exact h

/-- C7 (amended): the distance field encoding is invertible for every
distance `1 ≤ D ≤ 2^28` (so that `k = 31 - clz(D-1) ≤ 27` and
`(uint32_t)(k << k)` does not wrap): `decode_distance` applied to the bits
produced by `emit_offset(D)` returns exactly `D` and consumes the whole
field. -/
theorem c7_distance_codec_roundtrip (D : Nat) (h1 : 1 ≤ D) (h2 : D ≤ 2 ^ 28) :
    LzaDecompress.decode_distance (LzaCompress.emit_offset_bits D) = (D, []) := by
  have hD64 : D - 1 < 2 ^ 64 := by
    have : (2:Nat) ^ 28 ≤ 2 ^ 64 := by norm_num
    omega
  have hdec : (D + (2 ^ 64 - 1)) % 2 ^ 64 = D - 1 := by
    have he : D + (2 ^ 64 - 1) = (D - 1) + 1 * 2 ^ 64 := by
      have : (0:Nat) < 2 ^ 64 := by positivity
      omega
    rw [he, Nat.add_mul_mod_self_right, Nat.mod_eq_of_lt hD64]
  unfold LzaCompress.emit_offset_bits
  simp only [hdec]
  by_cases hsmall : D - 1 < 2
  · rw [if_pos hsmall]
    unfold LzaDecompress.decode_distance
    rw [← List.append_nil (bitsMSB 6 (D - 1)), takeBits_exact]
    have hm : (D - 1) % 2 ^ 6 = D - 1 := Nat.mod_eq_of_lt (by omega)
    simp only [hm]
    rw [if_pos hsmall]
    have : D - 1 + 1 = D := by omega
    rw [this]
  · rw [if_neg hsmall]
    obtain ⟨k, hklo, hkhi⟩ :
        ∃ k, 2 ^ k ≤ D - 1 ∧ D - 1 < 2 ^ (k + 1) :=
      ⟨Nat.log2 (D - 1), Nat.log2_self_le (by omega), Nat.lt_log2_self⟩
    have hk1 : 1 ≤ k := by
      rcases Nat.eq_zero_or_pos k with hz | hp1


      · subst hz
        norm_num at hkhi
        omega
      · omega
    have hk27 : k ≤ 27 := by
      by_contra hcon
      have h28 : (2:Nat) ^ 28 ≤ 2 ^ k := Nat.pow_le_pow_right (by omega) (by omega)
      omega
    have ho32 : (D - 1) % 2 ^ 32 = D - 1 := Nat.mod_eq_of_lt (by
      have : (2:Nat) ^ 28 ≤ 2 ^ 32 := by norm_num
      omega)
    have hbw : bitWidth 32 (D - 1) = k + 1 := bitWidth_spec k 32 (D - 1) hklo hkhi (by omega)
    have hctb : 31 - LzaCompress.count_trailing_bits ((D - 1) % 2 ^ 32) = k := by
      rw [ho32, LzaCompress.count_trailing_bits, hbw]
      omega
    simp only [hctb]
    have hshl1 : (1 : Nat) <<< k = 2 ^ k := by
      rw [Nat.shiftLeft_eq, one_mul]
    have hland : (D - 1) &&& ((2 ^ 64 - 1) ^^^ (1 <<< k)) = (D - 1) - 2 ^ k := by
      rw [hshl1]
      exact land_clear_top (D - 1) k (by omega) hklo hkhi
    have hk2 : k * 2 ^ k < 2 ^ 32 := by
      have hx1 : k * 2 ^ k ≤ 27 * 2 ^ 27 :=
        Nat.mul_le_mul hk27 (Nat.pow_le_pow_right (by omega) hk27)
      have hx2 : (27 * 2 ^ 27 : Nat) < 2 ^ 32 := by norm_num
      omega
    have hshk : (k <<< k) % 2 ^ 32 = k * 2 ^ k := by
      rw [Nat.shiftLeft_eq, Nat.mod_eq_of_lt hk2]
    have hrlt : (D - 1) - 2 ^ k < 2 ^ k := by
      have : 2 ^ (k + 1) = 2 ^ k * 2 := pow_succ 2 k
      omega
    have hlor : ((D - 1) - 2 ^ k) ||| ((k <<< k) % 2 ^ 32)
        = ((D - 1) - 2 ^ k) + k * 2 ^ k := by
      rw [hshk]
      exact lor_low_add ((D - 1) - 2 ^ k) k k hrlt
    simp only [hland, hlor]
    rw [decode_distance_core k ((D - 1) - 2 ^ k) hk1 hk27 hrlt]
    have hfin : 2 ^ k + ((D - 1) - 2 ^ k) + 1 = D := by omega
    rw [hfin]

/-- Witness for C7: the round-trip theorem applied at `D = 5`. -/
theorem c7_distance_codec_roundtrip_witness :
    LzaDecompress.decode_distance (LzaCompress.emit_offset_bits 5) = (5, []) :=
  c7_distance_codec_roundtrip 5 (by decide) (by decide)

/-! ## Last-distance vector (`find_repeats.c` / `lza_decompress.c`) -/

namespace FindRepeats

/-- `update_last4` from `find_repeats.c`: the search loop
`for (i = 0; i < 3; i++) if (last_dist[i] == distance) break;` finds the
first index `i ∈ {0,1,2}` holding `distance` (`i = 3` otherwise), the
shift loop `for (; i > 0; i--) last_dist[i] = last_dist[i-1];` moves the
entries above it down, and `last_dist[0] = distance` stores the distance
at the front.  The four possible values of `i` give the four branches. -/
def update_last4 (last : Nat × Nat × Nat × Nat) (distance : Nat) :
    Nat × Nat × Nat × Nat :=
  if last.1 = distance then
    (distance, last.2.1, last.2.2.1, last.2.2.2)
  else if last.2.1 = distance then
    (distance, last.1, last.2.2.1, last.2.2.2)
  else if last.2.2.1 = distance then
    (distance, last.1, last.2.1, last.2.2.2)
  else
    (distance, last.1, last.2.1, last.2.2.1)

end FindRepeats

namespace LzaDecompress

/-- The inline last-distance update of `lz_decompress`
(`lza_decompress.c`, lines 113-119): same search/shift/store loops as
`update_last4` in `find_repeats.c`. -/
def update_last_dist (last : Nat × Nat × Nat × Nat) (distance : Nat) :
    Nat × Nat × Nat × Nat :=
  if last.1 = distance then
    (distance, last.2.1, last.2.2.1, last.2.2.2)
  else if last.2.1 = distance then
    (distance, last.1, last.2.2.1, last.2.2.2)
  else if last.2.2.1 = distance then
    (distance, last.1, last.2.1, last.2.2.2)
  else
    (distance, last.1, last.2.1, last.2.2.1)

end LzaDecompress

/-- No two distinct slots of the last-distance vector hold the same
non-zero value. -/
def NoDupNZ (l : Nat × Nat × Nat × Nat) : Prop :=
  (l.1 ≠ 0 → l.1 ≠ l.2.1 ∧ l.1 ≠ l.2.2.1 ∧ l.1 ≠ l.2.2.2) ∧
  (l.2.1 ≠ 0 → l.2.1 ≠ l.2.2.1 ∧ l.2.1 ≠ l.2.2.2) ∧
  (l.2.2.1 ≠ 0 → l.2.2.1 ≠ l.2.2.2)

theorem update_last4_fst (l : Nat × Nat × Nat × Nat) (d : Nat) :
    (FindRepeats.update_last4 l d).1 = d := by
  unfold FindRepeats.update_last4
  split_ifs <;> rfl

theorem update_last4_preserves (l : Nat × Nat × Nat × Nat) (d : Nat)
    (h : NoDupNZ l) : NoDupNZ (FindRepeats.update_last4 l d) := by
  obtain ⟨h0, h1, h2⟩ := h
  unfold FindRepeats.update_last4
  split_ifs with e0 e1 e2
  · subst e0
    exact ⟨h0, h1, h2⟩
  · refine ⟨fun hnz => ⟨?_, ?_, ?_⟩, fun hnz => ⟨?_, ?_⟩, fun hnz => ?_⟩
    · exact fun hc => e0 hc.symm
    · subst e1; exact (h1 hnz).1
    · subst e1; exact (h1 hnz).2
    · exact (h0 hnz).2.1
    · exact (h0 hnz).2.2
    · exact h2 hnz
  · refine ⟨fun hnz => ⟨?_, ?_, ?_⟩, fun hnz => ⟨?_, ?_⟩, fun hnz => ?_⟩
    · exact fun hc => e0 hc.symm
    · exact fun hc => e1 hc.symm
    · subst e2; exact h2 hnz
    · exact (h0 hnz).1
    · exact (h0 hnz).2.2
    · exact (h1 hnz).2
  · refine ⟨fun hnz => ⟨?_, ?_, ?_⟩, fun hnz => ⟨?_, ?_⟩, fun hnz => ?_⟩
    · exact fun hc => e0 hc.symm
    · exact fun hc => e1 hc.symm
    · exact fun hc => e2 hc.symm
    · exact (h0 hnz).1
    · exact (h0 hnz).2.1
    · exact (h1 hnz).1

theorem noDup_foldl (ds : List Nat) : ∀ l, NoDupNZ l →
    NoDupNZ (ds.foldl FindRepeats.update_last4 l) := by
  induction ds with
  | nil => intro l h; exact h
  | cons d t ih =>
    intro l h
    exact ih _ (update_last4_preserves l d h)

/-- C8: both sides update the last-distance vector identically
(`update_last4` in `find_repeats.c` and the inline loops of
`lz_decompress`), and starting from the all-zero vector the vector never
holds a duplicated non-zero value, with the most recently used distance
always at index 0. -/
theorem c8_last_distance_invariant :
    (∀ l d, LzaDecompress.update_last_dist l d = FindRepeats.update_last4 l d) ∧
    (∀ ds : List Nat,
      NoDupNZ (ds.foldl FindRepeats.update_last4 (0, 0, 0, 0))) ∧
    (∀ (ds : List Nat) (d : Nat),
      ((ds ++ [d]).foldl FindRepeats.update_last4 (0, 0, 0, 0)).1 = d) := by
  refine ⟨fun l d => rfl, fun ds => noDup_foldl ds _ (by simp [NoDupNZ]), ?_⟩
  intro ds d
  rw [List.foldl_append]
  exact update_last4_fst _ _

/-! ## Adaptive binary model (`arith_decode.c`; `arith_encode.c` contains
an identical static copy of `MODEL`, `init_model` and `update_model`) -/

namespace ArithDecode

/-- `MAX_WINDOW_SIZE` from `arith_decode.h`. -/
def MAX_WINDOW_SIZE : Nat := 2048

/-- `MODEL` from `arith_decode.h`: two counters, ring-buffer indices into
the `history` byte array of `MAX_WINDOW_SIZE * 2` entries, and the window
size.  `prob[2]` is modelled as the two fields `prob0`, `prob1`; the
`history` array as a function from index to stored bit. -/
structure MODEL where
  prob0 : Nat
  prob1 : Nat
  history_prev : Nat
  history_next : Nat
  window_size : Nat
  history : Nat → Nat

/-- `init_model` from `arith_decode.c`.  The C code leaves the `history`
array uninitialized (its entries are never read before being written); the
embedding initializes it to 0. -/
def init_model (window_size : Nat) : MODEL :=
  { prob0 := 1, prob1 := 1, history_prev := 0, history_next := 0,
    window_size := window_size, history := fun _ => 0 }

/-- `++model->prob[bit]` (the C code asserts `bit <= 1`). -/
def incProb (m : MODEL) (bit : Nat) : MODEL :=
  if bit = 1 then { m with prob1 := m.prob1 + 1 }
  else { m with prob0 := m.prob0 + 1 }

/-- `--model->prob[bit]`. -/
def decProb (m : MODEL) (bit : Nat) : MODEL :=
  if bit = 1 then { m with prob1 := m.prob1 - 1 }
  else { m with prob0 := m.prob0 - 1 }

/-- The history size as computed by `update_model`: the `uint32_t`
subtraction `history_next - history_prev` followed by the conditional
`+= MAX_WINDOW_SIZE * 2` yields this value when both indices are below
`MAX_WINDOW_SIZE * 2`. -/
def hsizeF (p n : Nat) : Nat :=
  if n < p then n + MAX_WINDOW_SIZE * 2 - p else n - p

/-- `update_model` from `arith_decode.c`: increment `prob[bit]`, store the
bit at `history_next` (advanced modulo `MAX_WINDOW_SIZE * 2`), and once
the history exceeds `window_size`, decrement the counter of the bit at
`history_prev` and advance `history_prev`. -/
def update_model (m : MODEL) (bit : Nat) : MODEL :=
  let m1 := incProb m bit
  let m2 := { m1 with
    history := Function.update m1.history m1.history_next bit,
    history_next := (m1.history_next + 1) % (MAX_WINDOW_SIZE * 2) }
  let history_size := hsizeF m2.history_prev m2.history_next
  if history_size > m2.window_size then
    let m3 := decProb m2 (m2.history m2.history_prev)
    { m3 with history_prev := (m3.history_prev + 1) % (MAX_WINDOW_SIZE * 2) }
  else m2

/-- The live window contents, oldest first, as a function of the ring
buffer fields. -/
def liveListF (p n : Nat) (h : Nat → Nat) : List Nat :=
  (List.range (hsizeF p n)).map (fun j => h ((p + j) % (MAX_WINDOW_SIZE * 2)))

/-- Invariant tying the counters to the live window contents. -/
def Inv (w : Nat) (m : MODEL) : Prop :=
  m.window_size = w ∧
  m.history_prev < MAX_WINDOW_SIZE * 2 ∧
  m.history_next < MAX_WINDOW_SIZE * 2 ∧
  hsizeF m.history_prev m.history_next ≤ w ∧
  (∀ x ∈ liveListF m.history_prev m.history_next m.history, x ≤ 1) ∧
  m.prob0 = 1 + (liveListF m.history_prev m.history_next m.history).count 0 ∧
  m.prob1 = 1 + (liveListF m.history_prev m.history_next m.history).count 1

theorem hsizeF_lt (p n : Nat) (hp : p < 4096) (hn : n < 4096) :
    hsizeF p n < 4096 := by
  unfold hsizeF MAX_WINDOW_SIZE
  split_ifs <;> omega

theorem prev_add_hsize (p n : Nat) (hp : p < 4096) (hn : n < 4096) :
    (p + hsizeF p n) % 4096 = n := by
  unfold hsizeF MAX_WINDOW_SIZE
  split_ifs <;> omega

theorem hsizeF_append (p n : Nat) (hp : p < 4096) (hn : n < 4096)
    (hs : hsizeF p n + 1 < 4096) :
    hsizeF p ((n + 1) % 4096) = hsizeF p n + 1 := by
  unfold hsizeF MAX_WINDOW_SIZE at *
  split_ifs at * <;> omega

theorem hsizeF_evict (p n : Nat) (hp : p < 4096) (hn : n < 4096)
    (h1 : 1 ≤ hsizeF p n) :
    hsizeF ((p + 1) % 4096) n = hsizeF p n - 1 := by
  unfold hsizeF MAX_WINDOW_SIZE at *
  split_ifs at * <;> omega

theorem addmod_inj (p j j' : Nat) (hj : j < 4096) (hj' : j' < 4096)
    (h : (p + j) % 4096 = (p + j') % 4096) : j = j' := by
  omega

theorem incProb_history_prev (m : MODEL) (b : Nat) :
    (incProb m b).history_prev = m.history_prev := by
  unfold incProb; split_ifs <;> rfl

theorem incProb_history_next (m : MODEL) (b : Nat) :
    (incProb m b).history_next = m.history_next := by
  unfold incProb; split_ifs <;> rfl

theorem incProb_history (m : MODEL) (b : Nat) :
    (incProb m b).history = m.history := by
  unfold incProb; split_ifs <;> rfl

theorem incProb_window_size (m : MODEL) (b : Nat) :
    (incProb m b).window_size = m.window_size := by
  unfold incProb; split_ifs <;> rfl

theorem incProb_prob0 (m : MODEL) (b : Nat) :
    (incProb m b).prob0 = m.prob0 + (if b = 1 then 0 else 1) := by
  unfold incProb; split_ifs <;> simp

theorem incProb_prob1 (m : MODEL) (b : Nat) :
    (incProb m b).prob1 = m.prob1 + (if b = 1 then 1 else 0) := by
  unfold incProb; split_ifs <;> simp

theorem decProb_history_prev (m : MODEL) (b : Nat) :
    (decProb m b).history_prev = m.history_prev := by
  unfold decProb; split_ifs <;> rfl

theorem decProb_history_next (m : MODEL) (b : Nat) :
    (decProb m b).history_next = m.history_next := by
  unfold decProb; split_ifs <;> rfl

theorem decProb_history (m : MODEL) (b : Nat) :
    (decProb m b).history = m.history := by
  unfold decProb; split_ifs <;> rfl

theorem decProb_window_size (m : MODEL) (b : Nat) :
    (decProb m b).window_size = m.window_size := by
  unfold decProb; split_ifs <;> rfl

theorem decProb_prob0 (m : MODEL) (b : Nat) :
    (decProb m b).prob0 = m.prob0 - (if b = 1 then 0 else 1) := by
  unfold decProb; split_ifs <;> simp

theorem decProb_prob1 (m : MODEL) (b : Nat) :
    (decProb m b).prob1 = m.prob1 - (if b = 1 then 1 else 0) := by
  unfold decProb; split_ifs <;> simp

/-- Appending a bit to the window: the live list grows at the end. -/
theorem liveListF_append (p n bit : Nat) (h : Nat → Nat)
    (hp : p < 4096) (hn : n < 4096) (hs : hsizeF p n + 1 < 4096) :
    liveListF p ((n + 1) % (MAX_WINDOW_SIZE * 2)) (Function.update h n bit)
      = liveListF p n h ++ [bit] := by
  have hM : MAX_WINDOW_SIZE * 2 = 4096 := by norm_num [MAX_WINDOW_SIZE]
  have hs1 : hsizeF p ((n + 1) % 4096) = hsizeF p n + 1 :=
    hsizeF_append p n hp hn hs
  have hps : (p + hsizeF p n) % 4096 = n := prev_add_hsize p n hp hn
  have hslt : hsizeF p n < 4096 := hsizeF_lt p n hp hn
  unfold liveListF
  rw [hM, hs1, List.range_succ, List.map_append]
  congr 1
  · apply List.map_congr_left
    intro j hj
    rw [List.mem_range] at hj
    have hne : (p + j) % 4096 ≠ n := by
      intro hc
      have h2 : (p + j) % 4096 = (p + hsizeF p n) % 4096 := by
        rw [hc]
        exact hps.symm
      have := addmod_inj p j (hsizeF p n) (by omega) (by omega) h2
      omega
    exact Function.update_noteq hne _ _
  · rw [List.map_singleton, hps, Function.update_same]

/-- Dropping the oldest bit of the window: the live list loses its head. -/
theorem liveListF_evict (p n : Nat) (h : Nat → Nat)
    (hp : p < 4096) (hn : n < 4096) (hs : 1 ≤ hsizeF p n) :
    liveListF p n h = h p :: liveListF ((p + 1) % (MAX_WINDOW_SIZE * 2)) n h ∧
    hsizeF ((p + 1) % (MAX_WINDOW_SIZE * 2)) n = hsizeF p n - 1 := by
  have hM : MAX_WINDOW_SIZE * 2 = 4096 := by norm_num [MAX_WINDOW_SIZE]
  have hsz : hsizeF ((p + 1) % (MAX_WINDOW_SIZE * 2)) n = hsizeF p n - 1 := by
    rw [hM]
    exact hsizeF_evict p n hp hn hs
  refine ⟨?_, hsz⟩
  unfold liveListF
  rw [hsz]
  rw [show hsizeF p n = (hsizeF p n - 1) + 1 by omega, List.range_succ_eq_map,
    List.map_cons, List.map_map]
  congr 1
  · rw [hM, Nat.add_zero, Nat.mod_eq_of_lt hp]
  · apply List.map_congr_left
    intro j hj
    show h ((p + (j + 1)) % (MAX_WINDOW_SIZE * 2))
        = h (((p + 1) % (MAX_WINDOW_SIZE * 2) + j) % (MAX_WINDOW_SIZE * 2))
    rw [hM, Nat.mod_add_mod]
    congr 2
    omega

theorem count01_length (l : List Nat) (h : ∀ x ∈ l, x ≤ 1) :
    l.count 0 + l.count 1 = l.length := by
  induction l with
  | nil => rfl
  | cons a t ih =>
    have ha : a ≤ 1 := h a (List.mem_cons_self a t)
    have ht := ih (fun x hx => h x (List.mem_cons_of_mem a hx))
    have h01 : a = 0 ∨ a = 1 := by omega
    rcases h01 with h0 | h0 <;> subst h0 <;>
      simp [List.count_cons] <;> omega

theorem liveListF_length (p n : Nat) (h : Nat → Nat) :
    (liveListF p n h).length = hsizeF p n := by
  unfold liveListF
  rw [List.length_map, List.length_range]

/-- One `update_model` step preserves the invariant, and the history
size follows `min (size + 1) w`. -/
theorem inv_step (w : Nat) (m : MODEL) (bit : Nat) (hw1 : 1 ≤ w)
    (hw2 : w ≤ 2048) (hinv : Inv w m) (hbit : bit ≤ 1) :
    Inv w (update_model m bit) ∧
    hsizeF (update_model m bit).history_prev (update_model m bit).history_next
      = min (hsizeF m.history_prev m.history_next + 1) w := by
  obtain ⟨hwin, hp, hn, hsw, hval, hp0, hp1⟩ := hinv
  have hM : MAX_WINDOW_SIZE * 2 = 4096 := by norm_num [MAX_WINDOW_SIZE]
  rw [hM] at hp hn
  have hs4096 : hsizeF m.history_prev m.history_next + 1 < 4096 := by omega
  have hs1 : hsizeF m.history_prev ((m.history_next + 1) % (MAX_WINDOW_SIZE * 2))
      = hsizeF m.history_prev m.history_next + 1 := by
    rw [hM]
    exact hsizeF_append _ _ hp hn hs4096
  have happ : liveListF m.history_prev ((m.history_next + 1) % (MAX_WINDOW_SIZE * 2))
        (Function.update m.history m.history_next bit)
      = liveListF m.history_prev m.history_next m.history ++ [bit] :=
    liveListF_append _ _ _ _ hp hn hs4096
  have hn' : (m.history_next + 1) % (MAX_WINDOW_SIZE * 2) < 4096 := by
    rw [hM]
    exact Nat.mod_lt _ (by norm_num)
  have hbit01 : bit = 0 ∨ bit = 1 := by omega
  unfold update_model
  simp only [incProb_history_prev, incProb_history_next, incProb_history,
    incProb_window_size, hwin]
  split_ifs with hev
  case pos =>
    -- eviction: history size was already w
    rw [hs1] at hev
    have hseq : hsizeF m.history_prev m.history_next = w := by omega
    have hsge1 : 1 ≤ hsizeF m.history_prev m.history_next := by omega
    have hpn : m.history_prev ≠ m.history_next := by
      intro hc
      have h0 : hsizeF m.history_prev m.history_next = 0 := by
        unfold hsizeF
        rw [hc]
        simp
      omega
    have hupd : Function.update m.history m.history_next bit m.history_prev
        = m.history m.history_prev :=
      Function.update_noteq hpn _ _
    have hevold := liveListF_evict m.history_prev m.history_next m.history hp hn hsge1
    have hszold : hsizeF ((m.history_prev + 1) % (MAX_WINDOW_SIZE * 2)) m.history_next
        = hsizeF m.history_prev m.history_next - 1 := hevold.2
    have hp'lt : (m.history_prev + 1) % (MAX_WINDOW_SIZE * 2) < 4096 := by
      rw [hM]
      exact Nat.mod_lt _ (by norm_num)
    have happ2 : liveListF ((m.history_prev + 1) % (MAX_WINDOW_SIZE * 2))
          ((m.history_next + 1) % (MAX_WINDOW_SIZE * 2))
          (Function.update m.history m.history_next bit)
        = liveListF ((m.history_prev + 1) % (MAX_WINDOW_SIZE * 2)) m.history_next
            m.history ++ [bit] :=
      liveListF_append _ _ _ _ hp'lt hn (by rw [hszold]; omega)
    have hsz2 : hsizeF ((m.history_prev + 1) % (MAX_WINDOW_SIZE * 2))
          ((m.history_next + 1) % (MAX_WINDOW_SIZE * 2))
        = hsizeF m.history_prev m.history_next := by
      rw [hM] at *
      rw [hsizeF_append _ _ hp'lt hn (by omega), hszold]
      omega
    -- the evicted bit
    have hehead : m.history m.history_prev
        ∈ liveListF m.history_prev m.history_next m.history := by
      rw [hevold.1]
      exact List.mem_cons_self _ _
    have he01 : m.history m.history_prev = 0 ∨ m.history m.history_prev = 1 := by
      have := hval _ hehead
      omega
    simp only [decProb_history_prev, decProb_history_next, decProb_history,
      decProb_window_size, decProb_prob0, decProb_prob1, incProb_history_prev,
      incProb_history_next, incProb_history, incProb_window_size,
      incProb_prob0, incProb_prob1]
    refine ⟨⟨rfl, ?_, ?_, ?_, ?_, ?_, ?_⟩, ?_⟩
    · show (m.history_prev + 1) % (MAX_WINDOW_SIZE * 2) < MAX_WINDOW_SIZE * 2
      rw [hM]
      exact hp'lt
    · show (m.history_next + 1) % (MAX_WINDOW_SIZE * 2) < MAX_WINDOW_SIZE * 2
      rw [hM]
      exact hn'
    · show hsizeF _ _ ≤ w
      rw [hsz2]
      omega
    · intro x hx
      rw [happ2] at hx
      rcases List.mem_append.mp hx with hx1 | hx1
      · apply hval
        rw [hevold.1]
        exact List.mem_cons_of_mem _ hx1
      · have : x = bit := List.mem_singleton.mp hx1
        omega
    · show m.prob0 + _ - _ = _
      rw [happ2, incProb_history_next, incProb_history_prev, hupd]
      rw [hevold.1, List.count_cons] at hp0
      rw [List.count_append]
      rcases hbit01 with hb | hb <;> rcases he01 with he | he <;>
        simp [hb, he] at hp0 ⊢ <;> omega
    · show m.prob1 + _ - _ = _
      rw [happ2, incProb_history_next, incProb_history_prev, hupd]
      rw [hevold.1, List.count_cons] at hp1
      rw [List.count_append]
      rcases hbit01 with hb | hb <;> rcases he01 with he | he <;>
        simp [hb, he] at hp1 ⊢ <;> omega
    · show hsizeF _ _ = _
      rw [hsz2]
      omega
  case neg =>
    rw [hs1] at hev
    simp only [incProb_prob0, incProb_prob1]
    refine ⟨⟨rfl, ?_, ?_, ?_, ?_, ?_, ?_⟩, ?_⟩
    · show m.history_prev < MAX_WINDOW_SIZE * 2
      rw [hM]
      exact hp
    · show (m.history_next + 1) % (MAX_WINDOW_SIZE * 2) < MAX_WINDOW_SIZE * 2
      rw [hM]
      exact hn'
    · show hsizeF _ _ ≤ w
      rw [hs1]
      omega
    · intro x hx
      rw [happ] at hx
      rcases List.mem_append.mp hx with hx1 | hx1
      · exact hval _ hx1
      · have : x = bit := List.mem_singleton.mp hx1
        omega
    · show m.prob0 + _ = _
      rw [happ, List.count_append]
      rcases hbit01 with hb | hb <;> simp [hb] <;> omega
    · show m.prob1 + _ = _
      rw [happ, List.count_append]
      rcases hbit01 with hb | hb <;> simp [hb] <;> omega
    · show hsizeF _ _ = _
      rw [hs1]
      omega

theorem inv_init (w : Nat) : Inv w (init_model w) := by
  refine ⟨rfl, by norm_num [MAX_WINDOW_SIZE, init_model],
    by norm_num [MAX_WINDOW_SIZE, init_model], ?_, ?_, ?_, ?_⟩
  · show hsizeF 0 0 ≤ w
    norm_num [hsizeF]
  · intro x hx
    simp [liveListF, hsizeF, init_model] at hx
  · show (1:Nat) = 1 + _
    simp [liveListF, hsizeF, init_model]
  · show (1:Nat) = 1 + _
    simp [liveListF, hsizeF, init_model]

theorem inv_foldl (w : Nat) (bs : List Nat) (hw1 : 1 ≤ w) (hw2 : w ≤ 2048) :
    ∀ m, Inv w m → (∀ b ∈ bs, b ≤ 1) →
    Inv w (bs.foldl update_model m) ∧
    hsizeF (bs.foldl update_model m).history_prev
        (bs.foldl update_model m).history_next
      = min (hsizeF m.history_prev m.history_next + bs.length) w := by
  induction bs with
  | nil =>
    intro m hm _
    refine ⟨hm, ?_⟩
    have hsw := hm.2.2.2.1
    simp only [List.foldl_nil, List.length_nil, Nat.add_zero]
    omega
  | cons b t ih =>
    intro m hm hb
    have hb0 : b ≤ 1 := hb b (List.mem_cons_self b t)
    have hstep := inv_step w m b hw1 hw2 hm hb0
    have ht := ih (update_model m b) hstep.1
      (fun x hx => hb x (List.mem_cons_of_mem b hx))
    refine ⟨ht.1, ?_⟩
    show hsizeF (t.foldl update_model (update_model m b)).history_prev
        (t.foldl update_model (update_model m b)).history_next = _
    rw [ht.2, hstep.2]
    simp only [List.length_cons]
    omega

end ArithDecode

/-- C6: starting from `init_model w` with `1 ≤ w ≤ MAX_WINDOW_SIZE`
(`prob[0] = prob[1] = 1`, empty history), after any sequence of
`update_model` calls both counters remain at least 1, their sum is at most
`w + 2`, and in fact the sum equals `2 + min n w` after `n` updates — so
once the window is full (`n ≥ w`) the sum is exactly `w + 2` after every
further update. -/
theorem c6_model_invariant (w : Nat) (bs : List Nat) (hw1 : 1 ≤ w)
    (hw2 : w ≤ ArithDecode.MAX_WINDOW_SIZE) (hbs : ∀ b ∈ bs, b ≤ 1) :
    1 ≤ (bs.foldl ArithDecode.update_model (ArithDecode.init_model w)).prob0 ∧
    1 ≤ (bs.foldl ArithDecode.update_model (ArithDecode.init_model w)).prob1 ∧
    (bs.foldl ArithDecode.update_model (ArithDecode.init_model w)).prob0 +
        (bs.foldl ArithDecode.update_model (ArithDecode.init_model w)).prob1
      ≤ w + 2 ∧
    (bs.foldl ArithDecode.update_model (ArithDecode.init_model w)).prob0 +
        (bs.foldl ArithDecode.update_model (ArithDecode.init_model w)).prob1
      = 2 + min bs.length w := by
  have hw2' : w ≤ 2048 := by
    have : ArithDecode.MAX_WINDOW_SIZE = 2048 := rfl
    omega
  have h := ArithDecode.inv_foldl w bs hw1 hw2'
    (ArithDecode.init_model w) (ArithDecode.inv_init w) hbs
  obtain ⟨⟨hwin, hp, hn, hsw, hval, hp0, hp1⟩, hsz⟩ := h
  have hc := ArithDecode.count01_length _ hval
  have hlen := ArithDecode.liveListF_length
    (bs.foldl ArithDecode.update_model (ArithDecode.init_model w)).history_prev
    (bs.foldl ArithDecode.update_model (ArithDecode.init_model w)).history_next
    (bs.foldl ArithDecode.update_model (ArithDecode.init_model w)).history
  have hz : ArithDecode.hsizeF (ArithDecode.init_model w).history_prev
      (ArithDecode.init_model w).history_next = 0 := by
    show ArithDecode.hsizeF 0 0 = 0
    norm_num [ArithDecode.hsizeF]
  rw [hz, Nat.zero_add] at hsz
  refine ⟨by omega, by omega, by omega, by omega⟩

/-- Witness for C6: three updates `[1, 0, 1]` on a window of size 2. -/
theorem c6_model_invariant_witness :
    1 ≤ (([1, 0, 1] : List Nat).foldl ArithDecode.update_model
        (ArithDecode.init_model 2)).prob0 ∧
    1 ≤ (([1, 0, 1] : List Nat).foldl ArithDecode.update_model
        (ArithDecode.init_model 2)).prob1 ∧
    (([1, 0, 1] : List Nat).foldl ArithDecode.update_model
        (ArithDecode.init_model 2)).prob0 +
      (([1, 0, 1] : List Nat).foldl ArithDecode.update_model
        (ArithDecode.init_model 2)).prob1 ≤ 2 + 2 ∧
    (([1, 0, 1] : List Nat).foldl ArithDecode.update_model
        (ArithDecode.init_model 2)).prob0 +
      (([1, 0, 1] : List Nat).foldl ArithDecode.update_model
        (ArithDecode.init_model 2)).prob1 = 2 + min ([1, 0, 1] : List Nat).length 2 :=
  c6_model_invariant 2 [1, 0, 1] (by decide) (by decide) (by decide)

/-! ## Bit emitter (`bit_emit.c`) and bit-stream reader (`bit_stream.c`) -/

namespace BitEmit

/-- `BIT_EMITTER` from `bit_emit.h`: `out` models the bytes written
between `begin` and `buf`; `data` the accumulator. -/
structure BIT_EMITTER where
  out : List Nat
  data : Nat

/-- `init_bit_emitter` from `bit_emit.c` (the buffer capacity only backs
an assert). -/
def init_bit_emitter : BIT_EMITTER := { out := [], data := 1 }

/-- `emit_bit` from `bit_emit.c`: `data = (data << 1) | (bit & 1)` in
`uint32_t`; when `data > 0xFF` the low byte is flushed and `data`
resets to 1. -/
def emit_bit (e : BIT_EMITTER) (bit : Nat) : BIT_EMITTER :=
  let data := ((e.data <<< 1) ||| (bit &&& 1)) % 2 ^ 32
  if data > 0xFF then { out := e.out ++ [data % 256], data := 1 }
  else { out := e.out, data := data }

/-- `emit_bits` from `bit_emit.c`: emits the low `bits` bits of `value`
most-significant first (after the C code's left-alignment shift, the
loop takes bits from the top). -/
def emit_bits (e : BIT_EMITTER) (value : Nat) (bits : Nat) : BIT_EMITTER :=
  (bitsMSB bits value).foldl emit_bit e

/-- `emit_tail` from `bit_emit.c`: emit 7 copies of the last bit
(`(data & 1) * 0x7F` emitted as 7 bits) and return the byte count. -/
def emit_tail (e : BIT_EMITTER) : Nat × BIT_EMITTER :=
  let e2 := emit_bits e ((e.data &&& 1) * 0x7F) 7
  (e2.out.length, e2)

end BitEmit

namespace BitStream

/-- `BIT_STREAM` from `bit_stream.c`: `buf`/`size` the byte buffer and
its size (`end - buf`), `pos` the bytes consumed, `data` the
accumulator. -/
structure BIT_STREAM where
  buf : List Nat
  size : Nat
  pos : Nat
  data : Nat

/-- `init_bit_stream` from `bit_stream.c`. -/
def init_bit_stream (buf : List Nat) (size : Nat) : BIT_STREAM :=
  { buf := buf, size := size, pos := 0, data := 0 }

/-- One iteration of the `get_bits` loop in `bit_stream.c`: refill (or
replay the last bit) when the low byte of `data` is exhausted, extract
bit 8, shift. -/
def get_bit_step (s : BIT_STREAM) : Nat × BIT_STREAM :=
  let dp : Nat × Nat :=
    if s.data % 256 = 0 then
      (if s.pos < s.size then ((s.buf.getD s.pos 0 <<< 1) ||| 1, s.pos + 1)
       else (s.data >>> 1, s.pos))
    else (s.data, s.pos)
  ((dp.1 >>> 8) &&& 1, { s with data := (dp.1 <<< 1) % 2 ^ 32, pos := dp.2 })

/-- The accumulation loop of `get_bits`. -/
def get_bits_go (s : BIT_STREAM) (value : Nat) : Nat → Nat × BIT_STREAM
  | 0 => (value, s)
  | bits + 1 =>
    let r := get_bit_step s
    get_bits_go r.2 ((value <<< 1) ||| r.1) bits

/-- `get_bits` from `bit_stream.c`. -/
def get_bits (s : BIT_STREAM) (bits : Nat) : Nat × BIT_STREAM :=
  get_bits_go s 0 bits

/-- `get_one_bit` from `bit_stream.c`. -/
def get_one_bit (s : BIT_STREAM) : Nat × BIT_STREAM := get_bits s 1

/-- The stream state after `k` single-bit reads. -/
def readIter (s : BIT_STREAM) : Nat → BIT_STREAM
  | 0 => s
  | k + 1 => (get_one_bit (readIter s k)).2

/-- The value of the `k`-th (0-based) single-bit read from a fresh
stream over `bytes`. -/
def nthReadBit (bytes : List Nat) (k : Nat) : Nat :=
  (get_one_bit (readIter (init_bit_stream bytes bytes.length) k)).1

end BitStream

theorem ofBitsMSB_lt (l : List Nat) (h : ∀ x ∈ l, x ≤ 1) :
    ofBitsMSB l < 2 ^ l.length := by
  induction l with
  | nil => simp [ofBitsMSB]
  | cons c t ih =>
    have hc : c ≤ 1 := h c (List.mem_cons_self c t)
    have ht := ih (fun x hx => h x (List.mem_cons_of_mem c hx))
    rw [ofBitsMSB_cons]
    have hp : 2 ^ (c :: t).length = 2 ^ t.length * 2 := by
      rw [List.length_cons, pow_succ]
    have hcb : c * 2 ^ t.length ≤ 2 ^ t.length := by
      calc c * 2 ^ t.length ≤ 1 * 2 ^ t.length := Nat.mul_le_mul_right _ hc
        _ = 2 ^ t.length := one_mul _
    omega

theorem bitsMSB_getD (w v i : Nat) (hi : i < w) :
    (bitsMSB w v).getD i 0 = (v >>> (w - 1 - i)) % 2 := by
  induction w generalizing i with
  | zero => omega
  | succ u ih =>
    cases i with
    | zero =>
      show ((v >>> u) % 2 :: bitsMSB u v).getD 0 0 = _
      simp
    | succ j =>
      show ((v >>> u) % 2 :: bitsMSB u v).getD (j + 1) 0 = _
      rw [List.getD_cons_succ, ih j (by omega)]
      congr 2
      omega

theorem bitsMSB_mod (w v : Nat) : bitsMSB w (v % 2 ^ w) = bitsMSB w v := by
  induction w generalizing v with
  | zero => rfl
  | succ u ih =>
    unfold bitsMSB
    congr 1
    · rw [Nat.shiftRight_eq_div_pow, Nat.shiftRight_eq_div_pow]
      rw [pow_succ, Nat.mod_mul]
      rw [Nat.add_mul_div_left _ _ (Nat.pos_pow_of_pos u (by omega)),
        Nat.mod_div_self, Nat.zero_add]
      omega
    · calc bitsMSB u (v % (2 ^ u * 2))
          = bitsMSB u (v % (2 ^ u * 2) % 2 ^ u) := (ih _).symm
        _ = bitsMSB u (v % 2 ^ u) := by
            rw [Nat.mod_mod_of_dvd _ ⟨2, rfl⟩]
        _ = bitsMSB u v := ih v

theorem bitsMSB_ofBitsMSB (l : List Nat) (h : ∀ x ∈ l, x ≤ 1) :
    bitsMSB l.length (ofBitsMSB l) = l := by
  induction l with
  | nil => rfl
  | cons c t ih =>
    have hc : c ≤ 1 := h c (List.mem_cons_self c t)
    have hval := fun x hx => h x (List.mem_cons_of_mem c hx)
    have hlt : ofBitsMSB t < 2 ^ t.length := ofBitsMSB_lt t hval
    show bitsMSB (t.length + 1) (ofBitsMSB (c :: t)) = c :: t
    rw [ofBitsMSB_cons]
    unfold bitsMSB
    congr 1
    · rw [Nat.shiftRight_eq_div_pow, Nat.mul_comm c (2 ^ t.length),
        Nat.mul_add_div (Nat.pos_pow_of_pos t.length (by omega)),
        Nat.div_eq_of_lt hlt]
      omega
    · rw [← bitsMSB_mod, Nat.mul_comm c (2 ^ t.length), Nat.mul_add_mod,
        Nat.mod_eq_of_lt hlt, ih hval]

theorem flatBits_length (bytes : List Nat) :
    (bytes.flatMap (fun b => bitsMSB 8 b)).length = 8 * bytes.length := by
  induction bytes with
  | nil => rfl
  | cons b t ih =>
    rw [List.flatMap_cons, List.length_append, ih, bitsMSB_length,
      List.length_cons]
    ring

theorem flatBits_getD (bytes : List Nat) : ∀ (q s : Nat), q < bytes.length → s < 8 →
    (bytes.flatMap (fun b => bitsMSB 8 b)).getD (8 * q + s) 0
      = (bytes.getD q 0 >>> (7 - s)) % 2 := by
  induction bytes with
  | nil => intro q s hq _; simp at hq
  | cons b t ih =>
    intro q s hq hs
    rw [List.flatMap_cons]
    cases q with
    | zero =>
      rw [Nat.mul_zero, Nat.zero_add,
        List.getD_append _ _ 0 s (by rw [bitsMSB_length]; omega),
        bitsMSB_getD 8 b s hs]
      simp
    | succ p =>
      rw [List.getD_append_right _ _ 0 (8 * (p + 1) + s)
        (by rw [bitsMSB_length]; omega)]
      rw [bitsMSB_length, show 8 * (p + 1) + s - 8 = 8 * p + s by omega,
        ih p s (by simpa using hq) hs]
      simp

/-! ### Round-trip of the bit emitter and the bit-stream reader (C5) -/

theorem ofBitsMSB_snoc (t : List Nat) (b : Nat) :
    ofBitsMSB (t ++ [b]) = 2 * ofBitsMSB t + b := by
  rw [ofBitsMSB_append]
  simp [List.foldl]

theorem ofBitsMSB_parity (l : List Nat) (hne : l ≠ []) (hv : ∀ x ∈ l, x ≤ 1) :
    ofBitsMSB l % 2 = l.getD (l.length - 1) 0 := by
  induction l using List.reverseRecOn with
  | nil => simp at hne
  | append_singleton t b ih =>
    rw [ofBitsMSB_snoc]
    have hb : b ≤ 1 := hv b (List.mem_append_right _ (by simp))
    have hlen : (t ++ [b]).length - 1 = t.length := by simp
    rw [hlen, List.getD_append_right t [b] 0 t.length (le_refl _)]
    simp
    omega

theorem getD_drop (l : List Nat) (n i : Nat) :
    (l.drop n).getD i 0 = l.getD (n + i) 0 := by
  simp [List.getD_eq_getElem?_getD, List.getElem?_drop]

theorem lor21 (b : Nat) : (b <<< 1) ||| 1 = b * 2 + 1 := by
  have h := lor_low_add 1 b 1 (by norm_num)
  rw [Nat.lor_comm] at h
  rw [Nat.shiftLeft_eq]
  rw [show b * 2 ^ 1 = b * 2 by norm_num] at h ⊢
  omega

namespace BitEmit

theorem emit_bit_run (bytes rem : List Nat) (hlen : rem.length ≤ 7)
    (hv : ∀ x ∈ rem, x ≤ 1) (b : Nat) (hb : b ≤ 1) :
    emit_bit ⟨bytes, 2 ^ rem.length + ofBitsMSB rem⟩ b =
      if rem.length = 7 then ⟨bytes ++ [ofBitsMSB (rem ++ [b])], 1⟩
      else ⟨bytes, 2 ^ (rem ++ [b]).length + ofBitsMSB (rem ++ [b])⟩ := by
  have hvlt : ofBitsMSB rem < 2 ^ rem.length := ofBitsMSB_lt rem hv
  have hple : (2:Nat) ^ rem.length ≤ 2 ^ 7 := Nat.pow_le_pow_right (by omega) hlen
  have hb1 : b &&& 1 = b := by
    rw [Nat.and_one_is_mod]
    omega
  have hraw : ((2 ^ rem.length + ofBitsMSB rem) <<< 1 ||| (b &&& 1)) % 2 ^ 32 =
      (2 ^ rem.length + ofBitsMSB rem) * 2 + b := by
    rw [hb1, Nat.shiftLeft_eq, pow_one]
    rw [Nat.lor_comm]
    have h2 : (2 ^ rem.length + ofBitsMSB rem) * 2 =
        (2 ^ rem.length + ofBitsMSB rem) * 2 ^ 1 := by norm_num
    rw [h2, lor_low_add b _ 1 (by omega)]
    rw [← h2]
    have : (2 ^ rem.length + ofBitsMSB rem) * 2 + b < 2 ^ 32 := by
      have : (2:Nat) ^ 7 = 128 := by norm_num
      omega
    omega
  have hsnoc : ofBitsMSB (rem ++ [b]) = 2 * ofBitsMSB rem + b := ofBitsMSB_snoc rem b
  unfold emit_bit
  simp only [hraw]
  by_cases hc : rem.length = 7
  · rw [if_pos hc]
    rw [if_pos (show (2 ^ rem.length + ofBitsMSB rem) * 2 + b > 0xFF by
      rw [hc]; norm_num; omega)]
    have hbyte : ((2 ^ rem.length + ofBitsMSB rem) * 2 + b) % 256 =
        ofBitsMSB (rem ++ [b]) := by
      rw [hsnoc, hc]
      have h7 : (2:Nat) ^ 7 = 128 := by norm_num
      omega
    rw [hbyte]
  · rw [if_neg hc]
    rw [if_neg (show ¬ ((2 ^ rem.length + ofBitsMSB rem) * 2 + b > 0xFF) by
      have hle6 : rem.length ≤ 6 := by omega
      have : (2:Nat) ^ rem.length ≤ 2 ^ 6 := Nat.pow_le_pow_right (by omega) hle6
      have h6 : (2:Nat) ^ 6 = 64 := by norm_num
      omega)]
    have hlen1 : (rem ++ [b]).length = rem.length + 1 := by simp
    have hdata : (2 ^ rem.length + ofBitsMSB rem) * 2 + b =
        2 ^ (rem ++ [b]).length + ofBitsMSB (rem ++ [b]) := by
      rw [hlen1, hsnoc, pow_succ]
      ring
    rw [hdata]

theorem emit_run_spec (l : List Nat) : (∀ x ∈ l, x ≤ 1) →
    (l.foldl emit_bit init_bit_emitter).out.flatMap (fun b => bitsMSB 8 b) =
        l.take (8 * (l.length / 8)) ∧
    (l.foldl emit_bit init_bit_emitter).data =
        2 ^ (l.length % 8) + ofBitsMSB (l.drop (8 * (l.length / 8))) ∧
    ∀ x ∈ (l.foldl emit_bit init_bit_emitter).out, x < 256 := by
  induction l using List.reverseRecOn with
  | nil =>
    intro _
    refine ⟨rfl, ?_, by simp [init_bit_emitter]⟩
    simp [init_bit_emitter, ofBitsMSB]
  | append_singleton t b ih =>
    intro hv
    have hvt : ∀ x ∈ t, x ≤ 1 := fun x hx => hv x (List.mem_append_left _ hx)
    have hbb : b ≤ 1 := hv b (List.mem_append_right _ (by simp))
    obtain ⟨hout, hdata, hbnd⟩ := ih hvt
    obtain ⟨rem, hrem⟩ : ∃ rem, t.drop (8 * (t.length / 8)) = rem := ⟨_, rfl⟩
    obtain ⟨outT, houtT⟩ : ∃ o, (t.foldl emit_bit init_bit_emitter).out = o := ⟨_, rfl⟩
    have hremlen : rem.length = t.length % 8 := by
      rw [← hrem, List.length_drop]
      omega
    have hremv : ∀ x ∈ rem, x ≤ 1 := by
      intro x hx
      rw [← hrem] at hx
      exact hvt x (List.mem_of_mem_drop hx)
    rw [hrem] at hdata
    rw [houtT] at hout hbnd
    rw [← hremlen] at hdata
    have hstate : t.foldl emit_bit init_bit_emitter =
        ⟨outT, 2 ^ rem.length + ofBitsMSB rem⟩ := by
      rw [← houtT, ← hdata]
    rw [List.foldl_append, List.foldl_cons, List.foldl_nil, hstate,
      emit_bit_run outT rem (by omega) hremv b hbb]
    by_cases hc : rem.length = 7
    · rw [if_pos hc]
      have hlb : (rem ++ [b]).length = 8 := by simp [hc]
      have hvb : ∀ x ∈ rem ++ [b], x ≤ 1 := by
        intro x hx
        rcases List.mem_append.mp hx with h | h
        · exact hremv x h
        · simp at h; omega
      have hTL : t.length % 8 = 7 := by omega
      refine ⟨?_, ?_, ?_⟩
      · rw [List.flatMap_append]
        simp only [List.flatMap_cons, List.flatMap_nil, List.append_nil]
        have hbits : bitsMSB 8 (ofBitsMSB (rem ++ [b])) = rem ++ [b] := by
          have h := bitsMSB_ofBitsMSB (rem ++ [b]) hvb
          rw [hlb] at h
          exact h
        rw [hbits]
        rw [hout, ← hrem, ← List.append_assoc, List.take_append_drop]
        have h8 : 8 * ((t ++ [b]).length / 8) = (t ++ [b]).length := by
          simp only [List.length_append, List.length_cons, List.length_nil]
          omega
        rw [h8, List.take_length]
      · have h1 : (t ++ [b]).length % 8 = 0 := by
          simp only [List.length_append, List.length_cons, List.length_nil]
          omega
        have h2 : 8 * ((t ++ [b]).length / 8) = (t ++ [b]).length := by
          simp only [List.length_append, List.length_cons, List.length_nil]
          omega
        rw [h1, h2, List.drop_length]
        simp [ofBitsMSB]
      · intro x hx
        rcases List.mem_append.mp hx with h | h
        · exact hbnd x h
        · have hxe : x = ofBitsMSB (rem ++ [b]) := by simpa using h
          have := ofBitsMSB_lt (rem ++ [b]) hvb
          rw [hlb] at this
          omega
    · rw [if_neg hc]
      have hTL : t.length % 8 ≤ 6 := by omega
      refine ⟨?_, ?_, ?_⟩
      · have h2 : 8 * ((t ++ [b]).length / 8) = 8 * (t.length / 8) := by
          simp only [List.length_append, List.length_cons, List.length_nil]
          omega
        rw [h2, List.take_append_of_le_length (by omega)]
        exact hout
      · have h1 : (rem ++ [b]).length = (t ++ [b]).length % 8 := by
          simp only [List.length_append, List.length_cons, List.length_nil]
          simp only [List.length_append, List.length_cons, List.length_nil] at hremlen ⊢
          omega
        have h2 : (t ++ [b]).drop (8 * ((t ++ [b]).length / 8)) = rem ++ [b] := by
          have h3 : 8 * ((t ++ [b]).length / 8) = 8 * (t.length / 8) := by
            simp only [List.length_append, List.length_cons, List.length_nil]
            omega
          rw [h3, List.drop_append_of_le_length (by omega), hrem]
        rw [← h1, ← h2]
      · exact hbnd

theorem emit_tail_run (l : List Nat) (hv : ∀ x ∈ l, x ≤ 1) :
    emit_tail (l.foldl emit_bit init_bit_emitter) =
      (((l ++ List.replicate 7 ((l.foldl emit_bit init_bit_emitter).data % 2)).foldl
          emit_bit init_bit_emitter).out.length,
       (l ++ List.replicate 7 ((l.foldl emit_bit init_bit_emitter).data % 2)).foldl
          emit_bit init_bit_emitter) := by
  obtain ⟨hout, hdata, hbnd⟩ := emit_run_spec l hv
  have hpar : (l.foldl emit_bit init_bit_emitter).data % 2 = 0 ∨
      (l.foldl emit_bit init_bit_emitter).data % 2 = 1 := by omega
  unfold emit_tail emit_bits
  rw [Nat.and_one_is_mod]
  rw [List.foldl_append]
  rcases hpar with hp | hp
  · rw [hp]
    rw [show bitsMSB 7 (0 * 0x7F) = List.replicate 7 0 from by decide]
  · rw [hp]
    rw [show bitsMSB 7 (1 * 0x7F) = List.replicate 7 1 from by decide]

theorem run_data_parity (l : List Nat) (hv : ∀ x ∈ l, x ≤ 1)
    (hmod : l.length % 8 ≠ 0) :
    (l.foldl emit_bit init_bit_emitter).data % 2 = l.getD (l.length - 1) 0 := by
  obtain ⟨hout, hdata, hbnd⟩ := emit_run_spec l hv
  rw [hdata]
  have hrlen : (l.drop (8 * (l.length / 8))).length = l.length % 8 := by
    rw [List.length_drop]
    omega
  have hne : l.drop (8 * (l.length / 8)) ≠ [] := by
    intro h
    rw [h] at hrlen
    simp at hrlen
    omega
  have hrv : ∀ x ∈ l.drop (8 * (l.length / 8)), x ≤ 1 :=
    fun x hx => hv x (List.mem_of_mem_drop hx)
  have hpar := ofBitsMSB_parity _ hne hrv
  have hpow : (2:Nat) ^ (l.length % 8) % 2 = 0 := by
    have h2 : (2:Nat) ^ (l.length % 8) = 2 * 2 ^ (l.length % 8 - 1) := by
      rw [← pow_succ']
      congr 1
      omega
    omega
  have hgd : (l.drop (8 * (l.length / 8))).getD
      ((l.drop (8 * (l.length / 8))).length - 1) 0 = l.getD (l.length - 1) 0 := by
    rw [getD_drop, hrlen]
    congr 1
    omega
  omega

end BitEmit

namespace BitStream

theorem get_one_bit_init (bytes : List Nat) (hC : 1 ≤ bytes.length)
    (hb0 : bytes.getD 0 0 < 256) :
    get_one_bit (init_bit_stream bytes bytes.length) =
      ((bytes.getD 0 0 >>> 7) % 2,
       ⟨bytes, bytes.length, 1, (bytes.getD 0 0 * 2 + 1) * 2 ^ 1⟩) := by
  obtain ⟨b, hbd, hblt⟩ : ∃ b, bytes.getD 0 0 = b ∧ b < 256 := ⟨_, rfl, hb0⟩
  simp only [get_one_bit, get_bits, get_bits_go, get_bit_step, init_bit_stream, hbd]
  simp only [if_true]
  rw [if_pos (show 0 < bytes.length by omega)]
  have hbit : (b <<< 1 ||| 1) >>> 8 &&& 1 = b >>> 7 % 2 := by
    rw [lor21, Nat.shiftRight_eq_div_pow, Nat.shiftRight_eq_div_pow, Nat.and_one_is_mod]
    norm_num
    omega
  have hdata : (b <<< 1 ||| 1) <<< 1 % 2 ^ 32 = (b * 2 + 1) * 2 ^ 1 := by
    rw [lor21, Nat.shiftLeft_eq]
    norm_num
    omega
  simp only [Nat.zero_shiftLeft, Nat.zero_or, hbit, hdata]

theorem get_one_bit_at (bytes : List Nat) (q r : Nat) (hr : r ≤ 7)
    (hq : q < bytes.length) (hb : ∀ x ∈ bytes, x < 256) :
    get_one_bit ⟨bytes, bytes.length, q + 1,
        (bytes.getD q 0 * 2 + 1) * 2 ^ (r + 1)⟩ =
      if r < 7 then
        ((bytes.getD q 0 >>> (6 - r)) % 2,
         ⟨bytes, bytes.length, q + 1, (bytes.getD q 0 * 2 + 1) * 2 ^ (r + 2)⟩)
      else if q + 1 < bytes.length then
        ((bytes.getD (q + 1) 0 >>> 7) % 2,
         ⟨bytes, bytes.length, q + 2, (bytes.getD (q + 1) 0 * 2 + 1) * 2 ^ 1⟩)
      else
        (bytes.getD q 0 % 2,
         ⟨bytes, bytes.length, q + 1, (bytes.getD q 0 * 2 + 1) * 2 ^ 8⟩) := by
  have hqmem : bytes.getD q 0 < 256 := by
    rw [List.getD_eq_getElem bytes 0 hq]
    exact hb _ (List.getElem_mem hq)
  obtain ⟨b, hbd, hblt⟩ : ∃ b, bytes.getD q 0 = b ∧ b < 256 := ⟨_, rfl, hqmem⟩
  rcases Nat.lt_or_ge r 7 with hr7 | hr7
  · rw [if_pos hr7]
    simp only [get_one_bit, get_bits, get_bits_go, get_bit_step, hbd]
    rw [if_neg (show ¬ ((b * 2 + 1) * 2 ^ (r + 1) % 256 = 0) by
      interval_cases r <;> norm_num <;> omega)]
    have hbit : ((b * 2 + 1) * 2 ^ (r + 1)) >>> 8 &&& 1 = b >>> (6 - r) % 2 := by
      rw [Nat.shiftRight_eq_div_pow, Nat.shiftRight_eq_div_pow, Nat.and_one_is_mod]
      interval_cases r <;> norm_num <;> omega
    have hdata : ((b * 2 + 1) * 2 ^ (r + 1)) <<< 1 % 2 ^ 32 = (b * 2 + 1) * 2 ^ (r + 2) := by
      rw [Nat.shiftLeft_eq]
      interval_cases r <;> norm_num <;> omega
    simp only [Nat.zero_shiftLeft, Nat.zero_or, hbit, hdata]
  · have hr' : r = 7 := by omega
    subst hr'
    rw [if_neg (by omega)]
    simp only [get_one_bit, get_bits, get_bits_go, get_bit_step, hbd]
    rw [if_pos (show (b * 2 + 1) * 2 ^ (7 + 1) % 256 = 0 by norm_num)]
    rcases Nat.lt_or_ge (q + 1) bytes.length with hq1 | hq1
    · rw [if_pos hq1]
      have hq1mem : bytes.getD (q + 1) 0 < 256 := by
        rw [List.getD_eq_getElem bytes 0 hq1]
        exact hb _ (List.getElem_mem hq1)
      obtain ⟨c, hcd, hclt⟩ : ∃ c, bytes.getD (q + 1) 0 = c ∧ c < 256 :=
        ⟨_, rfl, hq1mem⟩
      simp only [hcd]
      have hbit : (c <<< 1 ||| 1) >>> 8 &&& 1 = c >>> 7 % 2 := by
        rw [lor21, Nat.shiftRight_eq_div_pow, Nat.shiftRight_eq_div_pow, Nat.and_one_is_mod]
        norm_num
        omega
      have hdata : (c <<< 1 ||| 1) <<< 1 % 2 ^ 32 = (c * 2 + 1) * 2 ^ 1 := by
        rw [lor21, Nat.shiftLeft_eq]
        norm_num
        omega
      simp only [Nat.zero_shiftLeft, Nat.zero_or, hbit, hdata]
      rw [if_pos hq1]
    · have hq1' : ¬ (q + 1 < bytes.length) := by omega
      rw [if_neg hq1']
      have hbit : ((b * 2 + 1) * 2 ^ (7 + 1)) >>> 1 >>> 8 &&& 1 = b % 2 := by
        rw [Nat.shiftRight_eq_div_pow, Nat.shiftRight_eq_div_pow, Nat.and_one_is_mod]
        norm_num
        omega
      have hdata : ((b * 2 + 1) * 2 ^ (7 + 1)) >>> 1 <<< 1 % 2 ^ 32 = (b * 2 + 1) * 2 ^ 8 := by
        rw [Nat.shiftRight_eq_div_pow, Nat.shiftLeft_eq]
        norm_num
        omega
      simp only [Nat.zero_shiftLeft, Nat.zero_or, hbit, hdata]
      rw [if_neg hq1']

theorem readIter_spec (bytes : List Nat) (hC : 1 ≤ bytes.length)
    (hb : ∀ x ∈ bytes, x < 256) :
    ∀ j, 1 ≤ j →
      readIter (init_bit_stream bytes bytes.length) j =
        ⟨bytes, bytes.length, (min j (8 * bytes.length) - 1) / 8 + 1,
         (bytes.getD ((min j (8 * bytes.length) - 1) / 8) 0 * 2 + 1) *
           2 ^ ((min j (8 * bytes.length) - 1) % 8 + 1)⟩ := by
  intro j
  induction j with
  | zero => omega
  | succ n ih =>
    intro _
    rcases Nat.eq_zero_or_pos n with hn0 | hn1
    · subst hn0
      show (get_one_bit (readIter (init_bit_stream bytes bytes.length) 0)).2 = _
      show (get_one_bit (init_bit_stream bytes bytes.length)).2 = _
      have hb0 : bytes.getD 0 0 < 256 := by
        rw [List.getD_eq_getElem bytes 0 (by omega)]
        exact hb _ (List.getElem_mem (by omega))
      rw [get_one_bit_init bytes hC hb0]
      have hmin : min 1 (8 * bytes.length) = 1 := by omega
      rw [hmin]
    · show (get_one_bit (readIter (init_bit_stream bytes bytes.length) n)).2 = _
      rw [ih hn1]
      obtain ⟨q, r, hqr, hrlt⟩ :
          ∃ q r, min n (8 * bytes.length) - 1 = 8 * q + r ∧ r < 8 :=
        ⟨(min n (8 * bytes.length) - 1) / 8, (min n (8 * bytes.length) - 1) % 8,
         (Nat.div_add_mod _ 8).symm, Nat.mod_lt _ (by omega)⟩
      have hdiv : (min n (8 * bytes.length) - 1) / 8 = q := by omega
      have hmod : (min n (8 * bytes.length) - 1) % 8 = r := by omega
      have hq : q < bytes.length := by omega
      rw [hdiv, hmod, get_one_bit_at bytes q r (by omega) hq hb]
      by_cases hr7 : r < 7
      · rw [if_pos hr7]
        have hX : (min (n + 1) (8 * bytes.length) - 1) / 8 = q := by omega
        have hY : (min (n + 1) (8 * bytes.length) - 1) % 8 = r + 1 := by omega
        rw [hX, hY]
      · rw [if_neg hr7]
        by_cases hqC : q + 1 < bytes.length
        · rw [if_pos hqC]
          have hX : (min (n + 1) (8 * bytes.length) - 1) / 8 = q + 1 := by omega
          have hY : (min (n + 1) (8 * bytes.length) - 1) % 8 = 0 := by omega
          rw [hX, hY]
        · rw [if_neg hqC]
          have hX : (min (n + 1) (8 * bytes.length) - 1) / 8 = q := by omega
          have hY : (min (n + 1) (8 * bytes.length) - 1) % 8 = 7 := by omega
          rw [hX, hY]

theorem nthReadBit_spec (bytes : List Nat) (hC : 1 ≤ bytes.length)
    (hb : ∀ x ∈ bytes, x < 256) (k : Nat) :
    nthReadBit bytes k =
      (bytes.getD (min k (8 * bytes.length - 1) / 8) 0 >>>
        (7 - min k (8 * bytes.length - 1) % 8)) % 2 := by
  cases k with
  | zero =>
    have hb0 : bytes.getD 0 0 < 256 := by
      rw [List.getD_eq_getElem bytes 0 (by omega)]
      exact hb _ (List.getElem_mem (by omega))
    show (get_one_bit (init_bit_stream bytes bytes.length)).1 = _
    rw [get_one_bit_init bytes hC hb0]
    have hX : min 0 (8 * bytes.length - 1) / 8 = 0 := by omega
    have hY : (7 - min 0 (8 * bytes.length - 1) % 8) = 7 := by omega
    rw [hX, hY]
  | succ n =>
    show (get_one_bit (readIter (init_bit_stream bytes bytes.length) (n + 1))).1 = _
    rw [readIter_spec bytes hC hb (n + 1) (by omega)]
    obtain ⟨q, r, hqr, hrlt⟩ :
        ∃ q r, min (n + 1) (8 * bytes.length) - 1 = 8 * q + r ∧ r < 8 :=
      ⟨(min (n + 1) (8 * bytes.length) - 1) / 8,
       (min (n + 1) (8 * bytes.length) - 1) % 8,
       (Nat.div_add_mod _ 8).symm, Nat.mod_lt _ (by omega)⟩
    have hdiv : (min (n + 1) (8 * bytes.length) - 1) / 8 = q := by omega
    have hmod : (min (n + 1) (8 * bytes.length) - 1) % 8 = r := by omega
    have hq : q < bytes.length := by omega
    rw [hdiv, hmod, get_one_bit_at bytes q r (by omega) hq hb]
    by_cases hr7 : r < 7
    · rw [if_pos hr7]
      have hX : min (n + 1) (8 * bytes.length - 1) / 8 = q := by omega
      have hY : 7 - min (n + 1) (8 * bytes.length - 1) % 8 = 6 - r := by omega
      rw [hX, hY]
    · rw [if_neg hr7]
      by_cases hqC : q + 1 < bytes.length
      · rw [if_pos hqC]
        have hX : min (n + 1) (8 * bytes.length - 1) / 8 = q + 1 := by omega
        have hY : 7 - min (n + 1) (8 * bytes.length - 1) % 8 = 7 := by omega
        rw [hX, hY]
      · rw [if_neg hqC]
        have hX : min (n + 1) (8 * bytes.length - 1) / 8 = q := by omega
        have hY : 7 - min (n + 1) (8 * bytes.length - 1) % 8 = 0 := by omega
        rw [hX, hY, Nat.shiftRight_zero]

end BitStream

/-- C5: writing any nonempty sequence of bits through `emit_bit` followed by
`emit_tail` yields exactly `ceil(N/8)` bytes (the count `emit_tail` returns),
and a `bit_stream` reader initialised on those bytes returns the written bits
for the first `N` single-bit reads and the last written bit for every read at
position `>= N`. -/
theorem c5_bit_io_roundtrip (bs : List Nat) (hne : bs ≠ []) (hv : ∀ x ∈ bs, x ≤ 1) :
    (BitEmit.emit_tail (bs.foldl BitEmit.emit_bit BitEmit.init_bit_emitter)).1 = (bs.length + 7) / 8 ∧
    ∀ k, BitStream.nthReadBit (BitEmit.emit_tail (bs.foldl BitEmit.emit_bit BitEmit.init_bit_emitter)).2.out k =
      if k < bs.length then bs.getD k 0 else bs.getLast hne := by
  have hL : 1 ≤ bs.length := List.length_pos.mpr hne
  obtain ⟨c, hcdef⟩ : ∃ c, (bs.foldl BitEmit.emit_bit BitEmit.init_bit_emitter).data % 2 = c :=
    ⟨_, rfl⟩
  have hc1 : c ≤ 1 := by omega
  have htail := BitEmit.emit_tail_run bs hv
  rw [hcdef] at htail
  obtain ⟨l', hl'⟩ : ∃ l', bs ++ List.replicate 7 c = l' := ⟨_, rfl⟩
  have hl'len : l'.length = bs.length + 7 := by
    rw [← hl']
    simp
  have hl'v : ∀ x ∈ l', x ≤ 1 := by
    intro x hx
    rw [← hl'] at hx
    rcases List.mem_append.mp hx with h | h
    · exact hv x h
    · have := List.eq_of_mem_replicate h
      omega
  obtain ⟨hout, hdata, hbnd⟩ := BitEmit.emit_run_spec l' hl'v
  rw [hl'] at htail
  have hbytes : (BitEmit.emit_tail (bs.foldl BitEmit.emit_bit BitEmit.init_bit_emitter)).2.out =
      (l'.foldl BitEmit.emit_bit BitEmit.init_bit_emitter).out := by
    rw [htail]
  have hfst : (BitEmit.emit_tail (bs.foldl BitEmit.emit_bit BitEmit.init_bit_emitter)).1 =
      (l'.foldl BitEmit.emit_bit BitEmit.init_bit_emitter).out.length := by
    rw [htail]
  have hlen8 : 8 * (l'.foldl BitEmit.emit_bit BitEmit.init_bit_emitter).out.length =
      8 * (l'.length / 8) := by
    have h := congrArg List.length hout
    rw [flatBits_length, List.length_take] at h
    omega
  have hcount : (l'.foldl BitEmit.emit_bit BitEmit.init_bit_emitter).out.length =
      (bs.length + 7) / 8 := by omega
  refine ⟨by rw [hfst, hcount], ?_⟩
  intro k
  rw [hbytes, BitStream.nthReadBit_spec _ (by omega) hbnd k]
  obtain ⟨i, hi⟩ :
      ∃ i, min k (8 * (l'.foldl BitEmit.emit_bit BitEmit.init_bit_emitter).out.length - 1) = i :=
    ⟨_, rfl⟩
  have hiC : i < 8 * (l'.foldl BitEmit.emit_bit BitEmit.init_bit_emitter).out.length := by omega
  have hA := flatBits_getD (l'.foldl BitEmit.emit_bit BitEmit.init_bit_emitter).out (i / 8) (i % 8)
    (by omega) (by omega)
  rw [Nat.div_add_mod] at hA
  rw [hi, ← hA, hout]
  have htake : (l'.take (8 * (l'.length / 8))).getD i 0 = l'.getD i 0 := by
    simp [List.getD_eq_getElem?_getD, List.getElem?_take,
      show i < 8 * (l'.length / 8) by omega]
  rw [htake, ← hl']
  have hlast : bs.getLast hne = bs.getD (bs.length - 1) 0 := by
    rw [List.getLast_eq_getElem, List.getD_eq_getElem]
  by_cases hk : k < bs.length
  · rw [if_pos hk]
    have hik : i = k := by omega
    rw [hik, List.getD_append bs _ 0 k hk]
  · rw [if_neg hk]
    by_cases hm : bs.length % 8 = 0
    · have hieq : i = bs.length - 1 := by omega
      rw [hieq, List.getD_append bs _ 0 _ (by omega), hlast]
    · have hc' : c = bs.getD (bs.length - 1) 0 := by
        rw [← hcdef]
        exact BitEmit.run_data_parity bs hv hm
      have hiL : bs.length ≤ i := by omega
      rw [List.getD_append_right bs _ 0 i hiL]
      have hrep : (List.replicate 7 c).getD (i - bs.length) 0 = c := by
        rw [List.getD_eq_getElem _ _ (by simpa using show i - bs.length < 7 by omega)]
        exact List.getElem_replicate _ _
      rw [hrep, hc', hlast]


theorem c5_bit_io_roundtrip_witness :
    (([1, 0, 1] : List Nat) ≠ []) ∧
    (∀ x ∈ ([1, 0, 1] : List Nat), x ≤ 1) ∧
    (BitEmit.emit_tail (([1, 0, 1] : List Nat).foldl BitEmit.emit_bit
        BitEmit.init_bit_emitter)).1 = 1 ∧
    BitStream.nthReadBit
      (BitEmit.emit_tail (([1, 0, 1] : List Nat).foldl BitEmit.emit_bit
        BitEmit.init_bit_emitter)).2.out 5 = 1 :=
  ⟨by decide, by decide,
   (c5_bit_io_roundtrip [1, 0, 1] (by decide) (by decide)).1,
   by
     have h := (c5_bit_io_roundtrip [1, 0, 1] (by decide) (by decide)).2 5
     rw [h]
     decide⟩


/-! ## Arithmetic coder: encoder from `arith_encode.c`, decoder from
`arith_decode.c` (the two files are linked into different binaries; the
minify pipeline uses the decoder from `arith_decode.c`).  The C
renormalization loops terminate because every iteration doubles the
`low`/`high` interval; the embeddings run them on a fuel of 40 > 32
iterations, enough for 32-bit state. -/

namespace ArithEncode

/-- `EMIT` from `arith_encode.c`: `out` models the bytes written through
`dest`, `data` the accumulator (starts at 1, flushes at 9 bits). -/
structure EMIT where
  out : List Nat
  data : Nat

/-- `init_emit` from `arith_encode.c`. -/
def init_emit : EMIT := { out := [], data := 1 }

/-- `emit_bit` from `arith_encode.c`: `data = (data << 1) | bit` in
`uint32_t`, flushing the low byte once `data > 0xFF`. -/
def emit_bit (e : EMIT) (bit : Nat) : EMIT :=
  let data := ((e.data <<< 1) ||| bit) % 2 ^ 32
  if data > 0xFF then { out := e.out ++ [data % 256], data := 1 }
  else { out := e.out, data := data }

/-- `ENCODER` from `arith_encode.c` (the `MODEL` inside `arith_encode.c`
is an identical static copy of the one in `arith_decode.c`/`.h`). -/
structure ENCODER where
  model : ArithDecode.MODEL
  emit : EMIT
  low : Nat
  high : Nat
  num_pending : Nat

/-- `init_encoder` from `arith_encode.c` (`high = ~0U`). -/
def init_encoder (window_size : Nat) : ENCODER :=
  { model := ArithDecode.init_model window_size, emit := init_emit,
    low := 0, high := 2 ^ 32 - 1, num_pending := 0 }

/-- The `while (num_pending)` loop of `encode_bit`: emit `n` copies of
`bit`. -/
def emit_pending (e : EMIT) (bit : Nat) : Nat → EMIT
  | 0 => e
  | n + 1 => emit_pending (emit_bit e bit) bit n

/-- The `for (;;)` renormalization loop of `encode_bit`: E1/E2 emit the
top bit (plus pending opposite bits), E3 swallows the second-top bit;
all branches then double `low` and `high` (in `uint32_t`). -/
def renorm_enc : Nat → ENCODER → ENCODER
  | 0, s => s
  | fuel + 1, s =>
    if s.high < 0x80000000 ∨ 0x80000000 ≤ s.low then
      let out_bit := if 0x80000000 ≤ s.low then 1 else 0
      let e := emit_pending (emit_bit s.emit out_bit) (out_bit ^^^ 1) s.num_pending
      renorm_enc fuel
        { s with
          emit := e
          num_pending := 0
          low := (s.low <<< 1) % 2 ^ 32
          high := ((s.high <<< 1) + 1) % 2 ^ 32 }
    else if 0x40000000 ≤ s.low ∧ s.high < 0xC0000000 then
      renorm_enc fuel
        { s with
          num_pending := s.num_pending + 1
          low := ((s.low &&& 0xBFFFFFFF) <<< 1) % 2 ^ 32
          high := (((s.high ||| 0x40000000) <<< 1) + 1) % 2 ^ 32 }
    else s

/-- `encode_bit` from `arith_encode.c`: `range` is the wrapped `uint64`
difference plus one, `mid` the truncated `uint32` split point; the model
is updated before narrowing the interval (`low += mid` for a 1 bit,
`high = low + mid - 1` for a 0 bit, both in `uint32_t`). -/
def encode_bit (s : ENCODER) (bit : Nat) : ENCODER :=
  let prob0 := s.model.prob0
  let prob1 := s.model.prob1
  let range := ((s.high + 2 ^ 64) - s.low) % 2 ^ 64 + 1
  let mid := range * prob0 / (prob0 + prob1) % 2 ^ 32
  let m := ArithDecode.update_model s.model bit
  let s2 :=
    if bit ≠ 0 then { s with model := m, low := (s.low + mid) % 2 ^ 32 }
    else { s with model := m, high := (s.low + mid + 2 ^ 32 - 1) % 2 ^ 32 }
  renorm_enc 40 s2

/-- The `while (encoder->emit.data != 1)` flush loop of `emit_tail`. -/
def flush_tail : Nat → EMIT → Nat → EMIT
  | 0, e, _ => e
  | fuel + 1, e, bit => if e.data ≠ 1 then flush_tail fuel (emit_bit e bit) bit else e

/-- `emit_tail` from `arith_encode.c`: one bit for the quarter `low`
lies in, one opposite bit, then opposite bits until the last byte is
flushed. -/
def emit_tail (s : ENCODER) : EMIT :=
  let out_bit := if 0x40000000 ≤ s.low then 1 else 0
  let e := emit_bit (emit_bit s.emit out_bit) (out_bit ^^^ 1)
  flush_tail 9 e (out_bit ^^^ 1)

/-- The bits of one source byte in the order the `do/while` loop of
`arith_encode` consumes them: least-significant first, stopping when the
`0x100` sentinel is all that remains.  Fuel 9 covers the 9-bit value. -/
def byte_bits_lsb : Nat → Nat → List Nat
  | 0, _ => []
  | fuel + 1, v =>
    (v &&& 1) :: (if v >>> 1 = 1 then [] else byte_bits_lsb fuel (v >>> 1))

/-- `arith_encode` from `arith_encode.c`: returns the emitted bytes (the
C function writes them to `dest` and returns their count). -/
def arith_encode (src : List Nat) (window_size : Nat) : List Nat :=
  if src.length = 0 then []
  else
    let enc := src.foldl
      (fun s b => (byte_bits_lsb 9 (b ||| 0x100)).foldl encode_bit s)
      (init_encoder window_size)
    (emit_tail enc).out

end ArithEncode

namespace ArithDecode

/-- `DECODER` from `arith_decode.c`: model, `bit_stream` reader, and the
32-bit interval state. -/
structure DECODER where
  model : MODEL
  stream : BitStream.BIT_STREAM
  low : Nat
  high : Nat
  value : Nat

/-- `init_decoder` from `arith_decode.c`: `value` is primed with 32 bits
from the stream. -/
def init_decoder (src : List Nat) (src_size window_size : Nat) : DECODER :=
  let p := BitStream.get_bits (BitStream.init_bit_stream src src_size) 32
  { model := init_model window_size, stream := p.2,
    low := 0, high := 2 ^ 32 - 1, value := p.1 }

/-- The `for (;;)` renormalization loop of `decode_next_bit`: E1/E2 do
nothing extra, E3 subtracts the quarter from `value`; all non-break
branches double `low`, `high` and `value` (pulling one stream bit). -/
def renorm_dec : Nat → DECODER → DECODER
  | 0, d => d
  | fuel + 1, d =>
    if d.high < 0x80000000 ∨ 0x80000000 ≤ d.low then
      let p := BitStream.get_one_bit d.stream
      renorm_dec fuel
        { d with
          stream := p.2
          low := (d.low <<< 1) % 2 ^ 32
          high := ((d.high <<< 1) + 1) % 2 ^ 32
          value := ((d.value <<< 1) + p.1) % 2 ^ 32 }
    else if 0x40000000 ≤ d.low ∧ d.high < 0xC0000000 then
      let p := BitStream.get_one_bit d.stream
      renorm_dec fuel
        { d with
          stream := p.2
          low := ((d.low &&& 0xBFFFFFFF) <<< 1) % 2 ^ 32
          high := (((d.high ||| 0x40000000) <<< 1) + 1) % 2 ^ 32
          value := ((((d.value + 2 ^ 32 - 0x40000000) % 2 ^ 32) <<< 1) + p.1) % 2 ^ 32 }
    else d

/-- `decode_next_bit` from `arith_decode.c`: same `range`/`mid` split as
the encoder; the decoded bit is `value >= low + mid` (in `uint32_t`). -/
def decode_next_bit (d : DECODER) : Nat × DECODER :=
  let prob0 := d.model.prob0
  let prob1 := d.model.prob1
  let range := ((d.high + 2 ^ 64) - d.low) % 2 ^ 64 + 1
  let mid := range * prob0 / (prob0 + prob1) % 2 ^ 32
  let out_bit := if (d.low + mid) % 2 ^ 32 ≤ d.value then 1 else 0
  let m := update_model d.model out_bit
  let d2 :=
    if out_bit ≠ 0 then { d with model := m, low := (d.low + mid) % 2 ^ 32 }
    else { d with model := m, high := (d.low + mid + 2 ^ 32 - 1) % 2 ^ 32 }
  (out_bit, renorm_dec 40 d2)

/-- The `do { out_byte = (out_byte << 1) + bit } while (out_byte < 0x100)`
byte-assembly loop of `arith_decode` (most-significant bit first, sentinel
accumulator starting at 1; 8 iterations, fuel 9). -/
def decode_byte_go : Nat → Nat → DECODER → Nat × DECODER
  | 0, acc, d => (acc, d)
  | fuel + 1, acc, d =>
    let p := decode_next_bit d
    let acc2 := (acc <<< 1) + p.1
    if acc2 < 0x100 then decode_byte_go fuel acc2 p.2 else (acc2, p.2)

/-- The per-byte output loop of `arith_decode` (`*(uint8_t *)dest`
truncates the sentinel accumulator to a byte). -/
def arith_decode_go : Nat → DECODER → List Nat
  | 0, _ => []
  | n + 1, d =>
    let p := decode_byte_go 9 1 d
    p.1 % 256 :: arith_decode_go n p.2

/-- `arith_decode` from `arith_decode.c`. -/
def arith_decode (dest_size : Nat) (src : List Nat) (window_size : Nat) : List Nat :=
  if dest_size = 0 then []
  else arith_decode_go dest_size (init_decoder src src.length window_size)

end ArithDecode


/-- C3: the arithmetic-coder round trip fails.  `arith_encode`
(`arith_encode.c`) consumes the bits of each source byte
least-significant first, while `arith_decode` (`arith_decode.c`, the
decoder linked into the decompression pipeline) reassembles the decoded
bits into bytes most-significant first, so decoding the encoding of the
one-byte input `0x0F` with the same window size 256 and destination size
1 yields the bit-reversed byte `0xF0`, not `0x0F`. -/
theorem c3_arith_roundtrip_mismatch :
    ArithEncode.arith_encode [0x0F] 256 = [0xCC, 0xFF] ∧
    ArithDecode.arith_decode 1 (ArithEncode.arith_encode [0x0F] 256) 256 = [0xF0] ∧
    ArithDecode.arith_decode 1 (ArithEncode.arith_encode [0x0F] 256) 256 ≠ [0x0F] := by
  refine ⟨by decide, by decide, by decide⟩


/-! ## Match finder (`find_repeats.c`).  `find_repeats.h` is a stale
header: it declares the first `OCCURRENCE` field as `offset` while
`find_repeats.c` refers to it as `distance`; both name the same (first)
component, which `lza_compress.c` reads as `occurrence.offset`.  The
`OFFSET_MAP` hash table is embedded with total functions in place of the
`malloc`ed arrays (allocation is assumed to succeed; `get_free_chunk`'s
capacity assert is not modelled).  `last_pos` exists only for asserts and
is omitted, as are the `stats_*` counters. -/

namespace FindRepeats

/-- `OCCURRENCE` (field `distance` per `find_repeats.c`). -/
structure OCCURRENCE where
  distance : Nat
  length : Nat
  last : Int

/-- `INVALID_ID` (`~0U`). -/
def INVALID_ID : Nat := 2 ^ 32 - 1

/-- `MAX_OFFSETS`. -/
def MAX_OFFSETS : Nat := 15

/-- `count_leading_zeroes` from `bit_ops.h` (`__builtin_clz`). -/
def count_leading_zeroes (value : Nat) : Nat := 32 - bitWidth 32 value

/-- `OFFSET_MAP`: `pair_ids` indexed by byte pair, chunks as two total
functions (per-chunk offset slots and next-chunk links). -/
structure OFFSET_MAP where
  pair_ids : Nat → Nat
  chunk_offset : Nat → Nat → Nat
  chunk_next : Nat → Nat
  num_chunks : Nat
  first_free_chunk_id : Nat
  last_pair_index : Nat

/-- `estimate_chunks` (`uint32_t` arithmetic). -/
def estimate_chunks (file_size : Nat) : Nat :=
  let est := file_size / MAX_OFFSETS * 2 % 2 ^ 32
  if est < 0x10000 then 0x10000 else est

/-- `init_offset_map`: the `memset(0xFF, ...)` makes every table entry
`INVALID_ID`. -/
def init_offset_map (num_chunks : Nat) : OFFSET_MAP :=
  { pair_ids := fun _ => INVALID_ID, chunk_offset := fun _ _ => INVALID_ID,
    chunk_next := fun _ => INVALID_ID, num_chunks := num_chunks,
    first_free_chunk_id := 0, last_pair_index := INVALID_ID }

/-- `get_map_idx`. -/
def get_map_idx (buf : List Nat) (pos : Nat) : Nat :=
  buf.getD pos 0 ||| (buf.getD (pos + 1) 0 <<< 8)

/-- The slot-search loop of `set_offset` (`for (i = 1; i < MAX_OFFSETS;
i++) ...; --i`). -/
def find_slot (m : OFFSET_MAP) (chunk_id : Nat) : Nat → Nat → Nat
  | 0, i => i - 1
  | fuel + 1, i =>
    if i < MAX_OFFSETS then
      if m.chunk_offset chunk_id i ≠ INVALID_ID then i - 1
      else find_slot m chunk_id fuel (i + 1)
    else i - 1

/-- `set_offset` from `find_repeats.c`. -/
def set_offset (buf : List Nat) (pos : Nat) (m : OFFSET_MAP) : OFFSET_MAP :=
  let idx := get_map_idx buf pos &&& 0xFFFF
  if m.last_pair_index = idx then m
  else
    let m2 := { m with last_pair_index := idx }
    let chunk_id := m2.pair_ids idx
    if chunk_id ≠ INVALID_ID ∧ m2.chunk_offset chunk_id 0 = INVALID_ID then
      let i := find_slot m2 chunk_id MAX_OFFSETS 1
      { m2 with chunk_offset := fun c s =>
          if c = chunk_id ∧ s = i then pos else m2.chunk_offset c s }
    else
      let new_id := m2.first_free_chunk_id
      { m2 with
        first_free_chunk_id := new_id + 1
        chunk_next := Function.update m2.chunk_next new_id chunk_id
        chunk_offset := fun c s =>
          if c = new_id ∧ s = MAX_OFFSETS - 1 then pos else m2.chunk_offset c s
        pair_ids := Function.update m2.pair_ids idx new_id }

/-- The scan loop of `compare`. -/
def compare_go (buf : List Nat) (left right endv : Nat) : Nat → Nat → Nat
  | 0, length => length
  | fuel + 1, length =>
    if length < endv ∧ buf.getD (left + length) 0 = buf.getD (right + length) 0 then
      compare_go buf left right endv fuel (length + 1)
    else length

/-- `compare` from `find_repeats.c`: match length from 2 up, capped at
`MAX_LZA_SIZE` and at the end of the buffer. -/
def compare (buf : List Nat) (left right size : Nat) : Nat :=
  let right_end := size - right
  let endv := if right_end > LzaCompress.MAX_LZA_SIZE then LzaCompress.MAX_LZA_SIZE
              else right_end
  compare_go buf left right endv (LzaCompress.MAX_LZA_SIZE + 1) 2

/-- `calc_match_score` (scores are C `int`s and can be negative). -/
def calc_match_score (occ : OCCURRENCE) : Int :=
  let lit_bits : Int := 9 * (occ.length : Int)
  let length_bits : Int :=
    if occ.length ≤ 9 then 4 else if occ.length ≤ 17 then 5
    else 2 + LzaCompress.LZA_LENGTH_TAIL_BITS
  let distance_bits : Int :=
    if occ.distance < 2 then 6 else 36 - (count_leading_zeroes occ.distance : Int)
  lit_bits - (2 + length_bits + distance_bits)

/-- `calc_longrep_score`. -/
def calc_longrep_score (occ : OCCURRENCE) : Int :=
  let lit_bits : Int := 9 * (occ.length : Int)
  let longrep_hdr_bits : Int := if occ.last < 2 then 4 else 5
  let length_bits : Int :=
    if occ.length ≤ 9 then 4 else if occ.length ≤ 17 then 5
    else 2 + LzaCompress.LZA_LENGTH_TAIL_BITS
  lit_bits - (longrep_hdr_bits + length_bits)

/-- `calc_cond_longrep_score`. -/
def calc_cond_longrep_score (occ : OCCURRENCE) : Int :=
  if occ.last < 0 then 0 else calc_longrep_score occ

/-- The byte scan of `get_repeated_byte_length`. -/
def grbl_go (buf : List Nat) (byte pos sz : Nat) : Nat → Nat → Nat
  | 0, length => length
  | fuel + 1, length =>
    if length < sz ∧ buf.getD (pos + length) 0 = byte then
      grbl_go buf byte pos sz fuel (length + 1)
    else length

/-- `get_repeated_byte_length` from `find_repeats.c`: length of the run
of bytes equal to `buf[pos]` starting at `pos`, capped at
`size - pos - 1`.  The C routine splits the scan into an unaligned
prefix, an 8-bytes-at-a-time middle and a byte tail purely for speed;
the result equals this byte-by-byte scan. -/
def get_repeated_byte_length (buf : List Nat) (pos size : Nat) : Nat :=
  grbl_go buf (buf.getD pos 0) pos (size - (pos + 1)) size 1

/-- Component access for the `last_dist[4]` array. -/
def ld_get (ld : Nat × Nat × Nat × Nat) : Nat → Nat
  | 0 => ld.1
  | 1 => ld.2.1
  | 2 => ld.2.2.1
  | _ => ld.2.2.2

/-- One iteration (index `last`) of the loop in
`find_occurrence_at_last_dist`. -/
def foald_step (buf : List Nat) (pos size : Nat) (ld : Nat × Nat × Nat × Nat)
    (occ : OCCURRENCE) (last : Nat) : OCCURRENCE :=
  let distance := ld_get ld last
  if distance = 0 then occ
  else if buf.getD (pos - distance) 0 ≠ buf.getD pos 0 then occ
  else if buf.getD (pos - distance + 1) 0 ≠ buf.getD (pos + 1) 0 then occ
  else
    let length := compare buf (pos - distance) pos size
    if occ.length ≤ length then ⟨distance, length, (last : Int)⟩ else occ

/-- `find_occurrence_at_last_dist` (the C loop runs `last = 3, 2, 1, 0`;
ties keep the later, i.e. smaller, index). -/
def find_occurrence_at_last_dist (buf : List Nat) (pos size : Nat)
    (ld : Nat × Nat × Nat × Nat) : OCCURRENCE :=
  [3, 2, 1, 0].foldl (foald_step buf pos size ld) ⟨0, 0, -1⟩

/-- `check_trailing_rep` from `find_repeats.c` (loop `i = 1..3`,
unrolled). -/
def check_trailing_rep (buf : List Nat) (pos size : Nat) (occ : OCCURRENCE) : Nat :=
  let left := pos - occ.distance + occ.length
  let right := pos + occ.length
  let bytes_after_match := size - right
  if bytes_after_match ≤ 1 then 0
  else if buf.getD (left + 1) 0 = buf.getD (right + 1) 0 then 1
  else if bytes_after_match ≤ 2 then 0
  else if buf.getD (left + 2) 0 = buf.getD (right + 2) 0 then 2
  else if bytes_after_match ≤ 3 then 0
  else if buf.getD (left + 3) 0 = buf.getD (right + 3) 0 then 3
  else 0

/-- The body of the `for (i = 0; i < MAX_OFFSETS; i++)` loop of
`find_longest_occurrence`; the running state is (best occurrence, its
score, its trailing-rep count). -/
def flo_inner (buf : List Nat) (pos size : Nat) (ld : Nat × Nat × Nat × Nat)
    (m : OFFSET_MAP) (repeated_length chunk_id : Nat)
    (st : OCCURRENCE × Int × Nat) (i : Nat) : OCCURRENCE × Int × Nat :=
  let old_pos := m.chunk_offset chunk_id i
  if old_pos = INVALID_ID then st
  else
    let len0 := compare buf old_pos pos size
    let dist0 := (pos - old_pos) % 2 ^ 32
    let dl :=
      if len0 ≤ repeated_length ∧ dist0 > 1 then
        let max_len := get_repeated_byte_length buf (pos - dist0) size
        if max_len > len0 then
          let diff := (max_len - len0) % 2 ^ 32
          let d := if diff < dist0 then dist0 - diff else 1
          (d, compare buf (pos - d) pos size)
        else (dist0, len0)
      else (dist0, len0)
    let lastv : Int :=
      if dl.1 = ld_get ld 3 then 3 else if dl.1 = ld_get ld 2 then 2
      else if dl.1 = ld_get ld 1 then 1 else if dl.1 = ld_get ld 0 then 0 else -1
    if 0 ≤ lastv then st
    else
      let occ : OCCURRENCE := ⟨dl.1, dl.2, lastv⟩
      let cur_score := calc_match_score occ
      let cur_trailing_rep := check_trailing_rep buf pos size occ
      if cur_trailing_rep ≠ 0 ∧
          (cur_score < st.2.1 ∨ (st.2.2 ≠ 0 ∧ cur_trailing_rep > st.2.2 ∧ cur_score ≤ st.2.1)) then st
      else if cur_trailing_rep = 0 ∧ cur_score ≤ st.2.1 then st
      else if cur_score < 2 then st
      else if occ.length = 3 ∧ occ.distance > 2 ^ 11 then st
      else if occ.length = 4 ∧ occ.distance > 2 ^ 13 then st
      else (occ, cur_score, cur_trailing_rep)

/-- The chunk-chain walk of `find_longest_occurrence` (chains go through
strictly older chunks, so `first_free_chunk_id + 1` bounds their
length). -/
def flo_chain (buf : List Nat) (pos size : Nat) (ld : Nat × Nat × Nat × Nat)
    (m : OFFSET_MAP) (repeated_length : Nat) :
    Nat → Nat → (OCCURRENCE × Int × Nat) → OCCURRENCE × Int × Nat
  | 0, _, st => st
  | fuel + 1, chunk_id, st =>
    if chunk_id = INVALID_ID then st
    else
      let st2 := (List.range MAX_OFFSETS).foldl
        (flo_inner buf pos size ld m repeated_length chunk_id) st
      flo_chain buf pos size ld m repeated_length fuel (m.chunk_next chunk_id) st2

/-- `find_longest_occurrence` from `find_repeats.c`. -/
def find_longest_occurrence (buf : List Nat) (pos size : Nat)
    (ld : Nat × Nat × Nat × Nat) (m : OFFSET_MAP) : OCCURRENCE :=
  let occurrence := find_occurrence_at_last_dist buf pos size ld
  let score := calc_cond_longrep_score occurrence
  let repeated_length := get_repeated_byte_length buf pos size
  let trailing_rep :=
    if occurrence.distance ≠ 0 then check_trailing_rep buf pos size occurrence else 0
  (flo_chain buf pos size ld m repeated_length (m.first_free_chunk_id + 1)
    (m.pair_ids (get_map_idx buf pos)) (occurrence, score, trailing_rep)).1

/-- A call to one of the two report callbacks: a literal run
(`report_literal`) or a match (`report_match`). -/
inductive REPORT where
  | literals (pos size : Nat)
  | matched (pos : Nat) (occurrence : OCCURRENCE)

/-- The scan loop of `report_literal_or_single_match`. -/
def rlosm_go (buf : List Nat) (last_dist0 endp : Nat) :
    Nat → Nat → Nat → List REPORT → List REPORT
  | 0, pos, num_literal, acc =>
    if num_literal ≠ 0 then acc ++ [.literals (pos - num_literal) num_literal] else acc
  | fuel + 1, pos, num_literal, acc =>
    if pos < endp then
      if last_dist0 ≠ 0 ∧ buf.getD pos 0 = buf.getD (pos - last_dist0) 0 then
        let acc2 :=
          if num_literal ≠ 0 then acc ++ [.literals (pos - num_literal) num_literal] else acc
        rlosm_go buf last_dist0 endp fuel (pos + 1) 0
          (acc2 ++ [.matched pos ⟨last_dist0, 1, 0⟩])
      else rlosm_go buf last_dist0 endp fuel (pos + 1) (num_literal + 1) acc
    else
      if num_literal ≠ 0 then acc ++ [.literals (pos - num_literal) num_literal] else acc

/-- `report_literal_or_single_match` from `find_repeats.c`: splits a
literal run into literal reports and single-byte `SHORTREP`-style
matches at the most recent distance. -/
def report_literal_or_single_match (buf : List Nat) (pos size last_dist0 : Nat) :
    List REPORT :=
  rlosm_go buf last_dist0 (pos + size) (size + 1) pos 0 []

/-- State of the main `find_repeats` loop. -/
structure FRState where
  pos : Nat
  num_literal : Nat
  last_dist : Nat × Nat × Nat × Nat
  map : OFFSET_MAP
  reports : List REPORT

/-- The `for (i = 0; i < occurrence.length; ++i)` table-update loop. -/
def match_advance (buf : List Nat) (size : Nat) :
    Nat → Nat → OFFSET_MAP → Nat × OFFSET_MAP
  | 0, pos, m => (pos, m)
  | i + 1, pos, m =>
    let m2 := if pos + 1 < size then set_offset buf pos m else m
    match_advance buf size i (pos + 1) m2

/-- The `while (pos + 1 < size)` loop of `find_repeats` (each iteration
advances `pos` by at least one, so `size` bounds the iteration count). -/
def fr_loop (buf : List Nat) (size : Nat) : Nat → FRState → FRState
  | 0, st => st
  | fuel + 1, st =>
    if st.pos + 1 < size then
      let occurrence := find_longest_occurrence buf st.pos size st.last_dist st.map
      if occurrence.length = 0 then
        fr_loop buf size fuel
          { st with map := set_offset buf st.pos st.map, pos := st.pos + 1,
                    num_literal := st.num_literal + 1 }
      else
        let so :=
          if occurrence.last < 0 ∧ st.pos + 2 < size then
            let nocc := find_occurrence_at_last_dist buf (st.pos + 1) size st.last_dist
            if 0 ≤ nocc.last ∧ calc_match_score occurrence ≤ calc_longrep_score nocc then
              ({ st with map := set_offset buf st.pos st.map, pos := st.pos + 1,
                         num_literal := st.num_literal + 1 }, nocc)
            else (st, occurrence)
          else (st, occurrence)
        let st2 := so.1
        let occ2 := so.2
        let reports :=
          if st2.num_literal ≠ 0 then
            st2.reports ++ report_literal_or_single_match buf (st2.pos - st2.num_literal)
              st2.num_literal st2.last_dist.1
          else st2.reports
        let reports2 := reports ++ [.matched st2.pos occ2]
        let pm := match_advance buf size occ2.length st2.pos st2.map
        fr_loop buf size fuel
          { pos := pm.1, num_literal := 0,
            last_dist := update_last4 st2.last_dist occ2.distance,
            map := pm.2, reports := reports2 }
    else st

/-- `find_repeats` from `find_repeats.c`, returning the sequence of
callback invocations (the C function reports through function
pointers). -/
def find_repeats (buf : List Nat) (size : Nat) : List REPORT :=
  if size = 0 then []
  else
    let st := fr_loop buf size size
      ⟨0, 0, (0, 0, 0, 0), init_offset_map (estimate_chunks size), []⟩
    let pn := if st.pos < size then (st.pos + 1, st.num_literal + 1)
              else (st.pos, st.num_literal)
    if pn.2 ≠ 0 then
      st.reports ++ report_literal_or_single_match buf (pn.1 - pn.2) pn.2 st.last_dist.1
    else st.reports

end FindRepeats

/-! ## LZA compressor (`lza_compress.c`).  The `EMITTER` packs bits
least-significant first into output bytes (`data` starts at `0x100` and
shifts right); buffer-quarter bookkeeping, the final `memmove`
concatenation and the `stats_*` counters are elided: the embedding
returns the concatenated streams directly, which is what the C code
produces in `dest` when the asserted capacity bounds hold. -/

namespace LzaCompress

/-- `EMITTER` from `lza_compress.c`: `out` the flushed bytes, `data` the
shift register (sentinel `0x100`). -/
structure EMITTER where
  out : List Nat
  data : Nat

/-- `init_emitter`. -/
def init_emitter : EMITTER := { out := [], data := 0x100 }

/-- One step of the `emit_bits` loop: `data = (data >> 1) | (bit << 8)`,
flushing `data >> 1` when the sentinel reaches bit 0. -/
def emit_bit (e : EMITTER) (bit : Nat) : EMITTER :=
  let data := ((e.data >>> 1) ||| (bit <<< 8)) % 2 ^ 32
  if data &&& 1 = 1 then { out := e.out ++ [data >>> 1 % 256], data := 0x100 }
  else { out := e.out, data := data }

/-- `emit_bits` from `lza_compress.c`: the low `bits` bits of `value`,
most-significant first (the C code asserts `bits != 0`). -/
def emit_bits (e : EMITTER) (value bits : Nat) : EMITTER :=
  (bitsMSB bits value).foldl emit_bit e

/-- `emit_tail` from `lza_compress.c`: pad with 7 copies of the last
bit (`(data >> 8) & 1`) and return the byte count. -/
def emit_tail (e : EMITTER) : Nat × EMITTER :=
  let last_bit := ((e.data >>> 8) &&& 1) * 0x7F
  let e2 := emit_bits e last_bit 7
  (e2.out.length, e2)

/-- `emit_type` from `lza_compress.c`: the packet-type codes are
`TYPE_LIT = 0` (1 bit), `TYPE_MATCH = 2` (2 bits), `TYPE_SHORTREP = 0xC`,
`TYPE_LONGREP0 = 0xD`, `TYPE_LONGREP1 = 0xE` (4 bits each),
`TYPE_LONGREP2 = 0x1E`, `TYPE_LONGREP3 = 0x1F` (5 bits each). -/
def emit_type (e : EMITTER) (type : Nat) : EMITTER :=
  let type_size :=
    if type = 2 then 2
    else if type = 0xC ∨ type = 0xD ∨ type = 0xE then 4
    else if type = 0x1E ∨ type = 0x1F then 5
    else 1
  emit_bits e type type_size

/-- `emit_size` from `lza_compress.c` (same split as `emit_size_bits`). -/
def emit_size (e : EMITTER) (size : Nat) : EMITTER :=
  if size ≤ 9 then emit_bits (emit_bits e 0 1) (size - 2) 3
  else if size ≤ 17 then emit_bits (emit_bits e 2 2) (size - 10) 3
  else emit_bits (emit_bits e 3 2) (size - 18) 8

/-- `emit_offset` from `lza_compress.c` (same arithmetic as
`emit_offset_bits`). -/
def emit_offset (e : EMITTER) (offset : Nat) : EMITTER :=
  let offset2 := (offset + (2 ^ 64 - 1)) % 2 ^ 64
  if offset2 < 2 then emit_bits e offset2 6
  else
    let bits_m1 := 31 - count_trailing_bits (offset2 % 2 ^ 32)
    let offset3 := offset2 &&& ((2 ^ 64 - 1) ^^^ (1 <<< bits_m1))
    let offset4 := offset3 ||| ((bits_m1 <<< bits_m1) % 2 ^ 32)
    emit_bits e offset4 (bits_m1 + 5)

/-- The four stream emitters of `COMPRESS`. -/
structure COMPRESS_STATE where
  type_emitter : EMITTER
  literal_emitter : EMITTER
  size_emitter : EMITTER
  offset_emitter : EMITTER

/-- `report_literal` from `lza_compress.c`: one `TYPE_LIT` packet and
one 8-bit literal per byte of the run. -/
def report_literal (buf : List Nat) (c : COMPRESS_STATE) (pos size : Nat) :
    COMPRESS_STATE :=
  (List.range size).foldl
    (fun c2 j =>
      { c2 with
        type_emitter := emit_type c2.type_emitter 0
        literal_emitter := emit_bits c2.literal_emitter (buf.getD (pos + j) 0) 8 })
    c

/-- `report_match` from `lza_compress.c` (reads the first `OCCURRENCE`
field, spelled `offset` in the stale `find_repeats.h`, as the
distance). -/
def report_match (c : COMPRESS_STATE) (occurrence : FindRepeats.OCCURRENCE) :
    COMPRESS_STATE :=
  if occurrence.last < 0 then
    { c with
      type_emitter := emit_type c.type_emitter 2
      size_emitter := emit_size c.size_emitter occurrence.length
      offset_emitter := emit_offset c.offset_emitter occurrence.distance }
  else if occurrence.length = 1 then
    { c with type_emitter := emit_type c.type_emitter 0xC }
  else
    let t := if occurrence.last = 0 then 0x1F
             else if occurrence.last = 1 then 0x1E
             else if occurrence.last = 2 then 0xE else 0xD
    { c with
      type_emitter := emit_type c.type_emitter t
      size_emitter := emit_size c.size_emitter occurrence.length }

/-- One callback invocation, as dispatched through the `find_repeats`
function pointers. -/
def apply_report (buf : List Nat) (c : COMPRESS_STATE) :
    FindRepeats.REPORT → COMPRESS_STATE
  | .literals pos size => report_literal buf c pos size
  | .matched _ occ => report_match c occ

/-- `COMPRESSED_SIZES` (the `stats_*` counters are omitted). -/
structure COMPRESSED_SIZES where
  types : Nat
  literals : Nat
  sizes : Nat
  offsets : Nat
  total : Nat
  compressed : Nat

/-- `emit_header` from `lza_compress.c`: the four stream sizes, each
distance-encoded with `emit_offset`, then `emit_tail`. -/
def emit_header (types literals sizes offsets : Nat) : Nat × List Nat :=
  let e := emit_offset (emit_offset (emit_offset (emit_offset init_emitter
    types) literals) sizes) offsets
  let p := emit_tail e
  (p.1, p.2.out)

/-- `compress` from `lza_compress.c`: run the match finder, emit the
four packet streams, flush them, prepend the `emit_header` bytes, and
arithmetic-encode the result after a 2-byte little-endian window-size
field.  Returns the `COMPRESSED_SIZES` (without stats) and the bytes the
C function leaves at `dest[0 .. compressed)`. -/
def compress (src : List Nat) (window_size : Nat) : COMPRESSED_SIZES × List Nat :=
  let reports := FindRepeats.find_repeats src src.length
  let c := reports.foldl (apply_report src)
    ⟨init_emitter, init_emitter, init_emitter, init_emitter⟩
  let pt := emit_tail c.type_emitter
  let pl := emit_tail c.literal_emitter
  let ps := emit_tail c.size_emitter
  let po := emit_tail c.offset_emitter
  let hdr := emit_header pt.1 pl.1 ps.1 po.1
  let inter := hdr.2 ++ pt.2.out ++ pl.2.out ++ ps.2.out ++ po.2.out
  let total := pt.1 + pl.1 + ps.1 + po.1 + hdr.1
  let payload := ArithEncode.arith_encode inter window_size
  (⟨pt.1, pl.1, ps.1, po.1, total, payload.length + 2⟩,
   [window_size % 256, window_size / 256 % 256] ++ payload)

end LzaCompress

/-! ## LZ decompressor (`lza_decompress.c`).  The file includes the
missing header `lza_stream.h`; the five-stream enum it needs
(`LZS_TYPE, LZS_LITERAL_MSB, LZS_LITERAL, LZS_SIZE, LZS_OFFSET`) is the
one in `lza_defines.h`.  Memory is modelled as a total function from
byte addresses (relative to `dest`) to values; the `ok` flag mirrors the
C asserts (`dest + length <= end`, `distance <= dest - begin`) plus
`distance != 0` and an exact-fill check, which together delimit the runs
with defined behaviour. -/

namespace LzaDecompress

/-- `decode_length` from `lza_decompress.c`, reading from a
`BIT_STREAM`. -/
def decode_length_s (s : BitStream.BIT_STREAM) : Nat × BitStream.BIT_STREAM :=
  let p1 := BitStream.get_one_bit s
  if p1.1 ≠ 0 then
    let p2 := BitStream.get_one_bit p1.2
    if p2.1 ≠ 0 then
      let p3 := BitStream.get_bits p2.2 8
      (2 + 8 + 8 + p3.1, p3.2)
    else
      let p3 := BitStream.get_bits p2.2 3
      (2 + 8 + p3.1, p3.2)
  else
    let p3 := BitStream.get_bits p1.2 3
    (2 + p3.1, p3.2)

/-- `decode_distance` from `lza_decompress.c`, reading from a
`BIT_STREAM` (`uint32_t` arithmetic). -/
def decode_distance_s (s : BitStream.BIT_STREAM) : Nat × BitStream.BIT_STREAM :=
  let p := BitStream.get_bits s 6
  if p.1 < 2 then (p.1 + 1, p.2)
  else
    let bits := (p.1 >>> 1) - 1
    let q := BitStream.get_bits p.2 bits
    (((((p.1 &&& 1) + 2) <<< bits) + q.1 + 1) % 2 ^ 32, q.2)

/-- The header parse of `lz_decompress`: five stream sizes decoded with
`decode_distance` from a stream whose size bound is `dest_size`; also
returns the number of header bytes consumed. -/
def lz_parse_sizes (input : List Nat) (dest_size : Nat) :
    (Nat × Nat × Nat × Nat × Nat) × Nat :=
  let p1 := decode_distance_s (BitStream.init_bit_stream input dest_size)
  let p2 := decode_distance_s p1.2
  let p3 := decode_distance_s p2.2
  let p4 := decode_distance_s p3.2
  let p5 := decode_distance_s p4.2
  ((p1.1, p2.1, p3.1, p4.1, p5.1), p5.2.pos)

/-- State of the `lz_decompress` packet loop. -/
structure LZ_STATE where
  out : List Nat
  prev_lit : Nat
  last_dist : Nat × Nat × Nat × Nat
  sT : BitStream.BIT_STREAM
  sM : BitStream.BIT_STREAM
  sL : BitStream.BIT_STREAM
  sS : BitStream.BIT_STREAM
  sO : BitStream.BIT_STREAM
  ok : Bool

/-- The match copy loop `*dest = *(dest - distance)`. -/
def lz_copy (distance : Nat) : Nat → List Nat → List Nat
  | 0, out => out
  | i + 1, out => lz_copy distance i (out ++ [out.getD (out.length - distance) 0])

/-- One iteration of the `do/while` packet loop of `lz_decompress`. -/
def lz_packet (dest_size : Nat) (st : LZ_STATE) : LZ_STATE :=
  let p := BitStream.get_one_bit st.sT
  if p.1 ≠ 0 then
    let p2 := BitStream.get_one_bit p.2
    let r :=
      if p2.1 ≠ 0 then
        let p3 := BitStream.get_bits p2.2 2
        if p3.1 ≠ 0 then
          let d0 := p3.1 - 1
          let ds := if d0 > 1 then
              let p4 := BitStream.get_one_bit p3.2
              (d0 + p4.1, p4.2)
            else (d0, p3.2)
          let q := decode_length_s st.sS
          (FindRepeats.ld_get st.last_dist ds.1, q.1, ds.2, q.2, st.sO)
        else (st.last_dist.1, 1, p3.2, st.sS, st.sO)
      else
        let q := decode_length_s st.sS
        let d := decode_distance_s st.sO
        (d.1, q.1, p2.2, q.2, d.2)
    let distance := r.1
    let length := r.2.1
    { out := lz_copy distance length st.out
      prev_lit := st.prev_lit
      last_dist := update_last_dist st.last_dist distance
      sT := r.2.2.1, sM := st.sM, sL := st.sL, sS := r.2.2.2.1, sO := r.2.2.2.2
      ok := st.ok && decide (st.out.length + length ≤ dest_size) &&
            decide (1 ≤ distance) && decide (distance ≤ st.out.length) }
  else
    let pm := BitStream.get_one_bit st.sM
    let pl := BitStream.get_bits st.sL 7
    let lit := ((((pm.1 <<< 7) ^^^ st.prev_lit) &&& 0x80) + pl.1) % 256
    { st with
      out := st.out ++ [lit]
      prev_lit := lit
      sT := p.2
      sM := pm.2
      sL := pl.2 }

/-- The `do/while (dest < end)` loop (each packet writes at least one
byte, so `dest_size` bounds the packet count). -/
def lz_loop (dest_size : Nat) : Nat → LZ_STATE → LZ_STATE
  | 0, st => st
  | fuel + 1, st =>
    let st2 := lz_packet dest_size st
    if st2.out.length < dest_size then lz_loop dest_size fuel st2 else st2

/-- `lz_decompress` from `lza_decompress.c` (the C code asserts
`dest_size != 0`): parse the five stream sizes, carve the five streams
out of the input starting right after the header bytes, and run the
packet loop.  Returns the decompressed bytes and the `ok` flag. -/
def lz_decompress (dest_size : Nat) (input : List Nat) : List Nat × Bool :=
  let ps := lz_parse_sizes input dest_size
  let base := ps.2
  let s1 := ps.1.1
  let s2 := ps.1.2.1
  let s3 := ps.1.2.2.1
  let s4 := ps.1.2.2.2.1
  let s5 := ps.1.2.2.2.2
  let st0 : LZ_STATE :=
    { out := [], prev_lit := 0, last_dist := (0, 0, 0, 0)
      sT := BitStream.init_bit_stream (input.drop base) s1
      sM := BitStream.init_bit_stream (input.drop (base + s1)) s2
      sL := BitStream.init_bit_stream (input.drop (base + s1 + s2)) s3
      sS := BitStream.init_bit_stream (input.drop (base + s1 + s2 + s3)) s4
      sO := BitStream.init_bit_stream (input.drop (base + s1 + s2 + s3 + s4)) s5
      ok := true }
  let stF := lz_loop dest_size dest_size st0
  (stF.out, stF.ok && decide (stF.out.length = dest_size))

/-- Byte-by-byte store of a list into memory at `base` (`uint8_t`
writes). -/
def writeList (mem : Nat → Nat) (base : Nat) : List Nat → Nat → Nat
  | [] => mem
  | b :: rest => writeList (Function.update mem base (b % 256)) (base + 1) rest

/-- `lza_decompress` from `lza_decompress.c` over the flat memory
holding the caller's allocation (addresses relative to `dest`): read the
little-endian window size from the first two compressed bytes,
arithmetic-decode `scratch_size` bytes to `dest + dest_size`, then LZ
decompress that scratch region into `dest[0 .. dest_size)`.  The C code
asserts `dest_size != 0` and `compressed_size > 2`. -/
def lza_decompress_mem (mem : Nat → Nat) (dest_size scratch_size : Nat)
    (comp : List Nat) : (Nat → Nat) × Bool :=
  let window_size := comp.getD 0 0 + 256 * comp.getD 1 0
  let scratch := ArithDecode.arith_decode scratch_size (comp.drop 2) window_size
  let mem1 := writeList mem dest_size scratch
  let p := lz_decompress dest_size scratch
  (writeList mem1 0 p.1, p.2)

end LzaDecompress


/-- The LZ intermediate `compress` hands to `arith_encode` (the contents
of `arith_input`): the `emit_header` bytes followed by the four flushed
streams in the order TYPE, LITERAL, SIZE, OFFSET. -/
def LzaCompress.compress_intermediate (src : List Nat) (_window_size : Nat) : List Nat :=
  let reports := FindRepeats.find_repeats src src.length
  let c := reports.foldl (LzaCompress.apply_report src)
    ⟨LzaCompress.init_emitter, LzaCompress.init_emitter,
     LzaCompress.init_emitter, LzaCompress.init_emitter⟩
  let pt := LzaCompress.emit_tail c.type_emitter
  let pl := LzaCompress.emit_tail c.literal_emitter
  let ps := LzaCompress.emit_tail c.size_emitter
  let po := LzaCompress.emit_tail c.offset_emitter
  let hdr := LzaCompress.emit_header pt.1 pl.1 ps.1 po.1
  hdr.2 ++ pt.2.out ++ pl.2.out ++ ps.2.out ++ po.2.out

/-- C9: compressing the empty input with window size 256 does not
produce zero-byte output.  `find_repeats` reports nothing, but
`finish_compress` and `emit_header` still run: `emit_header` calls
`emit_offset(0)` four times, whose `--offset` wraps to `2^64 - 1` and
emits 36 one-bits each, so the header is 18 bytes of `0xFF` and the
final output is the 2-byte window field plus the 2-byte arithmetic
encoding of that header: 4 bytes, not 0. -/
theorem c9_empty_input_nonzero_output :
    (LzaCompress.compress [] 256).1.compressed = 4 ∧
    (LzaCompress.compress [] 256).2 = [0x00, 0x01, 0xFE, 0xFF] ∧
    (LzaCompress.compress [] 256).1.compressed ≠ 0 :=
  ⟨by decide, by decide, by decide⟩

/-- C2: the LZ intermediate layout written by `compress` and the layout
parsed by `lz_decompress` disagree.  For the input `[0x41]` the
compressor emits a header of FOUR `emit_offset` fields (values 1, 1, 0,
0: the byte sizes of the TYPE, LITERAL, SIZE and OFFSET streams) and
lays out those four streams (2 bytes in total) after the 11-byte header;
`lz_decompress` instead reads FIVE `decode_distance` size fields, which
on this intermediate parse as (1, 1, 1, 1, 1) — five streams totalling 5
bytes, which cannot be the sizes of the 2 bytes of stream data
present. -/
theorem c2_intermediate_layout_mismatch :
    (LzaCompress.compress [0x41] 256).1.types = 1 ∧
    (LzaCompress.compress [0x41] 256).1.literals = 1 ∧
    (LzaCompress.compress [0x41] 256).1.sizes = 0 ∧
    (LzaCompress.compress [0x41] 256).1.offsets = 0 ∧
    LzaCompress.compress_intermediate [0x41] 256 =
      (LzaCompress.emit_header 1 1 0 0).2 ++ [0x00] ++ [0x82] ++ [] ++ [] ∧
    (LzaCompress.emit_header 1 1 0 0).2.length = 11 ∧
    (LzaDecompress.lz_parse_sizes (LzaCompress.compress_intermediate [0x41] 256) 1).1 =
      (1, 1, 1, 1, 1) ∧
    (1 + 1 + 1 + 1 + 1 : Nat) ≠
      (LzaCompress.compress_intermediate [0x41] 256).length - 11 :=
  ⟨by decide, by decide, by decide, by decide, by decide, by decide, by decide,
   by decide⟩

/-- C1: the compress/decompress round trip fails.  For the one-byte
input `[0x41]` and window size 256, `compress` produces the 13 bytes
below; running `lza_decompress` on them (destination size 1, scratch
size `total = 13`) leaves `0xFF` in the destination byte, not `0x41`
(the intermediate is corrupted by the arithmetic-coder bit-order
mismatch, and the four-stream/five-stream header mismatch then misparses
it). -/
theorem c1_compress_decompress_roundtrip_fails :
    (LzaCompress.compress [0x41] 256).2 =
      [0x00, 0x01, 0x13, 0xB1, 0x3B, 0x13, 0x3F, 0xFF, 0xFC, 0x0E, 0xC5, 0xF9, 0xE7] ∧
    (LzaDecompress.lza_decompress_mem (fun _ => 0) 1
        (LzaCompress.compress [0x41] 256).1.total
        (LzaCompress.compress [0x41] 256).2).1 0 = 0xFF ∧
    (0xFF : Nat) ≠ 0x41 :=
  ⟨by decide, by decide, by decide⟩

theorem writeList_outside (l : List Nat) : ∀ (mem : Nat → Nat) (base a : Nat),
    a < base ∨ base + l.length ≤ a →
    LzaDecompress.writeList mem base l a = mem a := by
  induction l with
  | nil => intro mem base a _; rfl
  | cons b t ih =>
    intro mem base a h
    show LzaDecompress.writeList (Function.update mem base (b % 256)) (base + 1) t a
        = mem a
    rw [ih _ _ _ (by simp only [List.length_cons] at h; omega)]
    rw [Function.update_noteq (by simp only [List.length_cons] at h; omega)]

theorem writeList_inside (l : List Nat) : ∀ (mem : Nat → Nat) (base i : Nat),
    i < l.length →
    LzaDecompress.writeList mem base l (base + i) = l.getD i 0 % 256 := by
  induction l with
  | nil => intro mem base i h; simp at h
  | cons b t ih =>
    intro mem base i h
    show LzaDecompress.writeList (Function.update mem base (b % 256)) (base + 1) t
        (base + i) = _
    cases i with
    | zero =>
      rw [writeList_outside t _ _ _ (Or.inl (by omega))]
      rw [Nat.add_zero, Function.update_same]
      rfl
    | succ j =>
      rw [show base + (j + 1) = base + 1 + j by omega]
      rw [ih _ _ _ (by simpa using h)]
      rfl

theorem arith_decode_go_length (n : Nat) :
    ∀ d, (ArithDecode.arith_decode_go n d).length = n := by
  induction n with
  | zero => intro d; rfl
  | succ k ih =>
    intro d
    show (_ :: ArithDecode.arith_decode_go k _).length = k + 1
    rw [List.length_cons, ih]

theorem arith_decode_go_lt (n : Nat) :
    ∀ d x, x ∈ ArithDecode.arith_decode_go n d → x < 256 := by
  induction n with
  | zero => intro d x h; simp [ArithDecode.arith_decode_go] at h
  | succ k ih =>
    intro d x h
    rcases List.mem_cons.mp h with he | ht
    · rw [he]; exact Nat.mod_lt _ (by omega)
    · exact ih _ x ht

theorem arith_decode_length (ds : Nat) (src : List Nat) (w : Nat) :
    (ArithDecode.arith_decode ds src w).length = ds := by
  unfold ArithDecode.arith_decode
  by_cases h : ds = 0
  · rw [if_pos h, h]; rfl
  · rw [if_neg h, arith_decode_go_length]

theorem arith_decode_lt (ds : Nat) (src : List Nat) (w : Nat) :
    ∀ x ∈ ArithDecode.arith_decode ds src w, x < 256 := by
  intro x h
  unfold ArithDecode.arith_decode at h
  by_cases hz : ds = 0
  · rw [if_pos hz] at h; simp at h
  · rw [if_neg hz] at h; exact arith_decode_go_lt _ _ x h

theorem lz_decompress_exact (dest_size : Nat) (input : List Nat)
    (h : (LzaDecompress.lz_decompress dest_size input).2 = true) :
    (LzaDecompress.lz_decompress dest_size input).1.length = dest_size := by
  simp only [LzaDecompress.lz_decompress] at h ⊢
  simp only [Bool.and_eq_true, decide_eq_true_eq] at h
  exact h.2

/-- C10: `lza_decompress` writes the arithmetic-decoded LZ intermediate
into the `scratch_size` bytes starting at address `dest_size` (i.e.
immediately after the destination region) and the LZ output into
`[0, dest_size)`; every byte at address `>= dest_size + scratch_size` is
unchanged, so the caller's single allocation must span
`dest_size + scratch_size` bytes.  The hypothesis is the embedding's
well-formedness flag, which mirrors the C asserts (no packet overruns
the destination and all match distances are in range). -/
theorem c10_scratch_after_dest (mem : Nat → Nat) (dest_size scratch_size : Nat)
    (comp : List Nat)
    (hok : (LzaDecompress.lza_decompress_mem mem dest_size scratch_size comp).2 = true) :
    (∀ a, dest_size + scratch_size ≤ a →
      (LzaDecompress.lza_decompress_mem mem dest_size scratch_size comp).1 a = mem a) ∧
    (∀ i, i < scratch_size →
      (LzaDecompress.lza_decompress_mem mem dest_size scratch_size comp).1
          (dest_size + i) =
        (ArithDecode.arith_decode scratch_size (comp.drop 2)
          (comp.getD 0 0 + 256 * comp.getD 1 0)).getD i 0) := by
  simp only [LzaDecompress.lza_decompress_mem] at hok ⊢
  have hlen := lz_decompress_exact _ _ hok
  have hslen := arith_decode_length scratch_size (comp.drop 2)
    (comp.getD 0 0 + 256 * comp.getD 1 0)
  constructor
  · intro a ha
    rw [writeList_outside _ _ _ _ (Or.inr (by rw [Nat.zero_add, hlen]; omega))]
    rw [writeList_outside _ _ _ _ (Or.inr (by rw [hslen]; omega))]
  · intro i hi
    rw [writeList_outside _ _ _ _ (Or.inr (by rw [Nat.zero_add, hlen]; omega))]
    rw [writeList_inside _ _ _ _ (by rw [hslen]; omega)]
    have hval : (ArithDecode.arith_decode scratch_size (comp.drop 2)
        (comp.getD 0 0 + 256 * comp.getD 1 0)).getD i 0 < 256 := by
      rw [List.getD_eq_getElem _ _ (by rw [hslen]; omega)]
      exact arith_decode_lt _ _ _ _ (List.getElem_mem _)
    exact Nat.mod_eq_of_lt hval

theorem c10_scratch_after_dest_witness :
    (LzaDecompress.lza_decompress_mem (fun _ => 3) 1 6 [0, 1, 3]).2 = true ∧
    (LzaDecompress.lza_decompress_mem (fun _ => 3) 1 6 [0, 1, 3]).1 9 = 3 ∧
    (LzaDecompress.lza_decompress_mem (fun _ => 3) 1 6 [0, 1, 3]).1 (1 + 2) =
      (ArithDecode.arith_decode 6 ([0, 1, 3].drop 2)
        ([0, 1, 3].getD 0 0 + 256 * [0, 1, 3].getD 1 0)).getD 2 0 :=
  ⟨by decide,
   (c10_scratch_after_dest (fun _ => 3) 1 6 [0, 1, 3] (by decide)).1 9 (by decide),
   (c10_scratch_after_dest (fun _ => 3) 1 6 [0, 1, 3] (by decide)).2 2 (by decide)⟩

end Minify
